import Mathlib

/-!
Verification of the SampleSort classification-and-placement pipeline.

Shallow embedding conventions:
- a filesystem path is a list of segments from the root (the model of a
  POSIX absolute path split at the separator);
- the filesystem is a finite record of existing file paths and directory
  paths; existsSync is membership in either list;
- JS strings are Lean String values, manipulated through their char lists;
- the streaming content hash, audio duration probe and the success of a
  move/copy syscall are oracles supplied as function parameters.
-/

/-- A filesystem path, as its list of segments from the root. -/
abbrev FsPath := List String

/-- The filesystem: the set of existing regular files and of existing
directories, each as a list of paths. -/
structure FS where
  files : List FsPath
  dirs : List FsPath
deriving DecidableEq

/-- Model of fs.existsSync: the path exists as a file or as a directory. -/
def pathExistsF (fs : FS) (p : FsPath) : Bool :=
  decide (p ∈ fs.files ∨ p ∈ fs.dirs)

/-- Model of fs.mkdirSync with recursive: true — every nonempty prefix of
the path becomes an existing directory. -/
def mkdirRec (fs : FS) (p : FsPath) : FS :=
  let newDirs := p.inits.foldl (fun acc q => if q = [] ∨ decide (q ∈ acc) then acc else q :: acc) fs.dirs
  { fs with dirs := newDirs }

/-- Model of writing a file at a path (createWriteStream / copyFileSync
target): the path becomes an existing file. -/
def writeFileAt (fs : FS) (p : FsPath) : FS :=
  { fs with files := p :: fs.files.erase p }

/-- Model of fs.unlinkSync. -/
def removeFileAt (fs : FS) (p : FsPath) : FS :=
  { fs with files := fs.files.erase p }

/-- Model of moveOrCopySync from organizer.js and bpmutils.js: rename when
move is set (the EXDEV fallback copy-then-unlink has the same net effect),
copy otherwise. -/
def moveOrCopySync (fs : FS) (src dest : FsPath) (move : Bool) : FS :=
  if move then { fs with files := dest :: fs.files.erase src }
  else { fs with files := dest :: fs.files.erase dest }

-- ---------------------------------------------------------------------
-- Decimal printing of a natural number (the model of JS number-to-string
-- interpolation for nonnegative integers), with an injectivity proof.
-- ---------------------------------------------------------------------

/-- The ten decimal digit characters. -/
def digitChar : Nat → Char
  | 0 => '0' | 1 => '1' | 2 => '2' | 3 => '3' | 4 => '4'
  | 5 => '5' | 6 => '6' | 7 => '7' | 8 => '8' | _ => '9'

/-- Little-endian decimal digits, fuel-guarded so the definition reduces
definitionally; the fuel is always sufficient at n + 1. -/
def natDigitsRevGo : Nat → Nat → List Nat
  | _, 0 => []
  | n, fuel + 1 => if n < 10 then [n] else n % 10 :: natDigitsRevGo (n / 10) fuel

/-- Little-endian decimal digits of a natural number. -/
def natDigitsRev (n : Nat) : List Nat := natDigitsRevGo n (n + 1)

/-- Decimal string of a natural number, as JS template interpolation
renders a nonnegative integer. -/
def natStr (n : Nat) : String :=
  String.mk ((natDigitsRev n).reverse.map digitChar)

/-- Value of a little-endian digit list. -/
def valDigits : List Nat → Nat
  | [] => 0
  | d :: ds => d + 10 * valDigits ds

theorem natDigitsRevGo_lt_ten : ∀ fuel n d, d ∈ natDigitsRevGo n fuel → d < 10 := by
  intro fuel
  induction fuel with
  | zero => intro n d h; simp [natDigitsRevGo] at h
  | succ fuel ih =>
    intro n d h
    simp only [natDigitsRevGo] at h
    by_cases hn : n < 10
    · simp [hn] at h; omega
    · simp [hn] at h
      rcases h with h | h
      · have : n % 10 < 10 := Nat.mod_lt _ (by omega)
        omega
      · exact ih _ _ h

theorem valDigits_natDigitsRevGo : ∀ fuel n, n < fuel → valDigits (natDigitsRevGo n fuel) = n := by
  intro fuel
  induction fuel with
  | zero => intro n h; omega
  | succ fuel ih =>
    intro n h
    simp only [natDigitsRevGo]
    by_cases hn : n < 10
    · simp [hn, valDigits]
    · have h10 : 10 ≤ n := by omega
      have hdiv : n / 10 < n := Nat.div_lt_self (by omega) (by omega)
      simp only [hn, if_false]
      simp [valDigits, ih (n / 10) (by omega)]
      omega

theorem valDigits_natDigitsRev (n : Nat) : valDigits (natDigitsRev n) = n :=
  valDigits_natDigitsRevGo (n + 1) n (Nat.lt_succ_self n)

theorem digitChar_inj : ∀ a, a < 10 → ∀ b, b < 10 → digitChar a = digitChar b → a = b := by
  decide

theorem map_digitChar_inj : ∀ (ds es : List Nat), (∀ d ∈ ds, d < 10) → (∀ e ∈ es, e < 10) →
    ds.map digitChar = es.map digitChar → ds = es := by
  intro ds
  induction ds with
  | nil => intro es _ _ h; cases es <;> simp_all
  | cons d ds ih =>
    intro es hds hes h
    cases es with
    | nil => simp at h
    | cons e es =>
      simp only [List.map_cons, List.cons.injEq] at h
      have hd := hds d (by simp)
      have he := hes e (by simp)
      have : d = e := digitChar_inj d hd e he h.1
      subst this
      have := ih es (fun x hx => hds x (by simp [hx])) (fun x hx => hes x (by simp [hx])) h.2
      simp [this]

theorem natStr_inj : ∀ m n, natStr m = natStr n → m = n := by
  intro m n h
  have h2 : ((natDigitsRev m).reverse.map digitChar) = ((natDigitsRev n).reverse.map digitChar) := by
    have := congrArg String.data h
    simpa [natStr] using this
  have h3 : (natDigitsRev m).reverse = (natDigitsRev n).reverse := by
    apply map_digitChar_inj
    · intro d hd
      exact natDigitsRevGo_lt_ten _ _ _ (by simpa using hd)
    · intro d hd
      exact natDigitsRevGo_lt_ten _ _ _ (by simpa using hd)
    · exact h2
  have h4 : natDigitsRev m = natDigitsRev n := by
    have := congrArg List.reverse h3
    simpa using this
  calc m = valDigits (natDigitsRev m) := (valDigits_natDigitsRev m).symm
    _ = valDigits (natDigitsRev n) := by rw [h4]
    _ = n := valDigits_natDigitsRev n

-- ---------------------------------------------------------------------
-- String helpers shared by the pipeline
-- ---------------------------------------------------------------------

/-- JS String.prototype.toLowerCase restricted to ASCII, which is all the
pipeline compares. -/
def toLowerStr (s : String) : String := String.mk (s.data.map Char.toLower)

/-- Whitespace characters recognised by the JS regex class backslash-s and
by String.prototype.trim (ASCII part). -/
def isSpaceChar (c : Char) : Bool :=
  c = ' ' ∨ c = '\t' ∨ c = '\n' ∨ c = '\r' ∨ c = '\x0b' ∨ c = '\x0c'

/-- Trim whitespace from both ends, the model of String.prototype.trim. -/
def trimStr (s : String) : String :=
  String.mk (((s.data.dropWhile isSpaceChar).reverse.dropWhile isSpaceChar).reverse)

/-- Replace every maximal run of characters satisfying p with one space;
the model of a global regex replace of a character-class-plus with " ". -/
def collapseRunsGo (p : Char → Bool) : Bool → List Char → List Char
  | _, [] => []
  | inRun, c :: rest =>
    if p c then
      if inRun then collapseRunsGo p true rest else ' ' :: collapseRunsGo p true rest
    else c :: collapseRunsGo p false rest

def collapseRuns (p : Char → Bool) (cs : List Char) : List Char :=
  collapseRunsGo p false cs

/-- Model of normalizeString from organizer.js: lowercase, dashes and
underscores become spaces, whitespace runs collapse, ends trimmed. -/
def normalizeString (s : String) : String :=
  let lowered := s.data.map Char.toLower
  let dashed := collapseRuns (fun c => c = '-' ∨ c = '_') lowered
  let spaced := collapseRuns isSpaceChar dashed
  trimStr (String.mk spaced)

/-- Model of JS String.prototype.includes: substring containment. -/
def strIncludes (hay needle : String) : Bool :=
  hay.data.tails.any (fun t => needle.data.isPrefixOf t)

/-- Model of String.prototype.startsWith. -/
def strStartsWith (s pre : String) : Bool := pre.data.isPrefixOf s.data

/-- Model of String.prototype.endsWith. -/
def strEndsWith (s suf : String) : Bool := suf.data.isSuffixOf s.data

/-- Model of isHiddenName from organizer.js: dotfiles and common system
junk names. -/
def isHiddenName (name : String) : Bool :=
  strStartsWith name "." ∨ strStartsWith name "._" ∨
  toLowerStr name = "thumbs.db" ∨ toLowerStr name = "desktop.ini" ∨ name = "__MACOSX"

/-- Model of isHiddenOrJunk from extractZip.js. -/
def isHiddenOrJunk (name : String) : Bool :=
  name ≠ "" ∧ (strStartsWith name "." ∨ strStartsWith name "._" ∨ name = "__MACOSX" ∨
    toLowerStr name = "thumbs.db" ∨ toLowerStr name = "desktop.ini")

/-- Characters stripped by sanitizeFolderName and sanitizeKey. -/
def illegalFolderChar (c : Char) : Bool :=
  c = '<' ∨ c = '>' ∨ c = ':' ∨ c = '"' ∨ c = '/' ∨ c = '\\' ∨ c = '|' ∨ c = '?' ∨ c = '*'

/-- Model of sanitizeFolderName from organizer.js: drop filesystem-illegal
characters, then trim. -/
def sanitizeFolderName (s : String) : String :=
  trimStr (String.mk (s.data.filter (fun c => ¬ illegalFolderChar c)))

/-- Model of sanitizeKey from bpmutils.js (same characters as
sanitizeFolderName). -/
def sanitizeKey (s : String) : String := sanitizeFolderName s

-- ---------------------------------------------------------------------
-- path.extname / basename split and uniqueDestPath
-- ---------------------------------------------------------------------

/-- Index just after which the extension of a file name starts: the last
dot, provided it is not the leading character (Node path.extname rules). -/
def lastDotIdx (cs : List Char) : Option Nat :=
  ((cs.enum.filter (fun pr => pr.2 = '.')).getLast?).map (fun pr => pr.1)

/-- Model of path.extname applied to a plain file name: the suffix from
the last dot, empty when there is no dot or the name starts with the only
dot. -/
def extnameOf (f : String) : String :=
  match lastDotIdx f.data with
  | some i => if i = 0 then "" else String.mk (f.data.drop i)
  | none => ""

/-- Model of path.basename(file, ext): the name with the extension suffix
removed. -/
def baseWithoutExt (f : String) : String :=
  match lastDotIdx f.data with
  | some i => if i = 0 then f else String.mk (f.data.take i)
  | none => f

/-- The i-th disambiguated candidate name, base (i)ext, built exactly as
the template literal in uniqueDestPath does. -/
def candidateName (base ext : String) (i : Nat) : String :=
  base ++ " (" ++ natStr i ++ ")" ++ ext

/-- The while loop of uniqueDestPath: starting from counter i, return the
first candidate path that does not exist; fuel bounds the iteration and is
always sufficient at the call site. -/
def uniqueLoop (fs : FS) (dir : FsPath) (base ext : String) : Nat → Nat → FsPath
  | _, 0 => []
  | i, fuel + 1 =>
    let c := dir ++ [candidateName base ext i]
    if pathExistsF fs c then uniqueLoop fs dir base ext (i + 1) fuel else c

/-- Model of uniqueDestPath from organizer.js and bpmutils.js: the
original dir/file when free, else the first free base (i)ext candidate
with i counting up from 2. -/
def uniqueDestPath (fs : FS) (dir : FsPath) (file : String) : FsPath :=
  let ext := extnameOf file
  let base := baseWithoutExt file
  let c0 := dir ++ [file]
  if pathExistsF fs c0 then
    uniqueLoop fs dir base ext 2 (fs.files.length + fs.dirs.length + 1)
  else c0

-- ---------------------------------------------------------------------
-- bpmutils.js: tempo / key folder detection and placement
-- ---------------------------------------------------------------------

/-- Decimal digit test, the regex class backslash-d. -/
def isDigitChar (c : Char) : Bool := '0' ≤ c ∧ c ≤ '9'

/-- Numeric value of a list of decimal digit characters (most significant
first), the model of parseInt on a captured digit group. -/
def digitsVal (cs : List Char) : Nat :=
  cs.foldl (fun acc c => acc * 10 + (c.toNat - '0'.toNat)) 0

/-- Model of BPM_DIR_RE from bpmutils.js: two or three digits, optional
whitespace, then bpm case-insensitively; returns the parsed digit group
exactly when the whole name matches. -/
def bpmNameParse (s : String) : Option Nat :=
  let cs := s.data
  let digits := cs.takeWhile isDigitChar
  let rest := cs.dropWhile isDigitChar
  if 2 ≤ digits.length ∧ digits.length ≤ 3 then
    match rest.dropWhile isSpaceChar with
    | [b, p, m] =>
      if b.toLower = 'b' ∧ p.toLower = 'p' ∧ m.toLower = 'm' then some (digitsVal digits)
      else none
    | _ => none
  else none

/-- Model of isBpmDirName from bpmutils.js. -/
def isBpmDirName (s : String) : Bool := (bpmNameParse s).isSome

/-- Note letter test of KEY_DIR_RE, case-insensitive A through G. -/
def isNoteLetter (c : Char) : Bool := 'a' ≤ c.toLower ∧ c.toLower ≤ 'g'

/-- Model of KEY_DIR_RE from bpmutils.js: note letter, optional sharp or
flat, whitespace, then Maj or Min, all case-insensitive. -/
def isKeyDirName (s : String) : Bool :=
  match s.data with
  | [] => false
  | c :: rest =>
    if isNoteLetter c then
      let rest2 := match rest with
        | a :: rs => if a = '#' ∨ a.toLower = 'b' then rs else rest
        | [] => ([] : List Char)
      let restW := rest2.dropWhile isSpaceChar
      let quality : Bool := match restW with
        | [x, y, z] =>
          x.toLower = 'm' ∧ ((y.toLower = 'a' ∧ z.toLower = 'j') ∨ (y.toLower = 'i' ∧ z.toLower = 'n'))
        | _ => false
      decide (restW.length < rest2.length) && quality
    else false

/-- Model of getParentBpmValue from bpmutils.js: parse the immediate
parent directory name against the BPM pattern. -/
def getParentBpmValue (file : FsPath) : Option Nat :=
  bpmNameParse (file.dropLast.getLastD "")

/-- The upward walk of firstNonBpmAncestorDir, acting on the reversed
segment list: drop leading BPM-named segments. -/
def stripBpmRev : List String → List String
  | [] => []
  | c :: rest => if isBpmDirName c then stripBpmRev rest else c :: rest

/-- Model of firstNonBpmAncestorDir from bpmutils.js: walk up from the
file's directory past every tempo-named ancestor. -/
def firstNonBpmAncestorDir (file : FsPath) : FsPath :=
  (stripBpmRev file.dropLast.reverse).reverse

/-- Model of moveFileToBPMFolder from bpmutils.js. The bpm argument is the
already-truncated integer parseInt produces from the caller's finite
number (non-finite inputs return early and are outside this model).
Returns the new filesystem, the path the function reports, and whether a
filesystem move was performed. -/
def moveFileToBPMFolder (fs : FS) (file : FsPath) (targetBpm : Nat)
    (keyValue : Option String) (dryRun : Bool) : FS × FsPath × Bool :=
  let dirNow := file.dropLast
  let currentParentBpm := getParentBpmValue file
  let alreadyInTargetBpm := currentParentBpm = some targetBpm
  let baseDir := firstNonBpmAncestorDir file
  let bpmDir := baseDir ++ [natStr targetBpm ++ " BPM"]
  let keyFolder : Option String := match keyValue with
    | none => none
    | some k => let s := sanitizeKey k; if s = "" then none else some s
  let finalDir := match keyFolder with
    | some kf => bpmDir ++ [kf]
    | none => bpmDir
  if alreadyInTargetBpm ∧ (keyFolder = none ∨ isKeyDirName (dirNow.getLastD "")) then
    (fs, finalDir ++ [file.getLastD ""], false)
  else if dryRun then
    (fs, finalDir ++ [file.getLastD ""], false)
  else
    let fs1 := mkdirRec fs finalDir
    let dest := uniqueDestPath fs1 finalDir (file.getLastD "")
    (moveOrCopySync fs1 file dest true, dest, true)

-- ---------------------------------------------------------------------
-- organizer.js: helpers
-- ---------------------------------------------------------------------

/-- Length of the longest common prefix of two segment paths. -/
def commonPrefixLen : FsPath → FsPath → Nat
  | a :: as, b :: bs => if a = b then commonPrefixLen as bs + 1 else 0
  | _, _ => 0

/-- Model of Node path.relative on two absolute segment paths: climb out
of the uncommon part of the source, then descend into the target. -/
def relativeSegs (src dst : FsPath) : List String :=
  let k := commonPrefixLen src dst
  List.replicate (src.length - k) ".." ++ dst.drop k

/-- The parentFolder computed at the top of categorizeFile:
path.dirname(path.relative(samplesDir, fullPath)).split(sep).pop(). For a
file directly under the samples root Node dirname returns the dot
segment. -/
def parentFolderOf (samplesDir file : FsPath) : String :=
  ((relativeSegs samplesDir file).dropLast).getLastD "."

/-- Model of normalizeKeywords from organizer.js: trim each keyword, drop
the empty ones. -/
def normalizeKeywords (list : List String) : List String :=
  (list.map trimStr).filter (fun k => k ≠ "")

/-- One flattened category rule (an element of the _flatCategories list
stashed on the config). -/
structure CategoryRule where
  main : String
  category : String
  keywords : List String
  matchAll : Bool
deriving DecidableEq

/-- One category entry of the grouped configuration. -/
structure SubCategory where
  name : String
  keywords : List String
  matchAll : Bool
deriving DecidableEq

/-- One main group of the grouped configuration. -/
structure MainCategory where
  name : String
  categories : List SubCategory
deriving DecidableEq

/-- Model of flattenMainCategories from organizer.js on a nonempty
grouped configuration: groups are flattened in order, keywords
normalized. -/
def flattenMainCategories (mains : List MainCategory) : List CategoryRule :=
  (mains.map (fun m => m.categories.map
    (fun c => CategoryRule.mk m.name c.name (normalizeKeywords c.keywords) c.matchAll))).flatten

/-- Model of matchesKeywords from organizer.js: normalize and drop empty
keywords; empty rule never matches; matchAll requires every keyword as a
substring of the normalized haystack, otherwise one suffices. -/
def matchesKeywords (ent : CategoryRule) (hay : String) : Bool :=
  let ks := (ent.keywords.map (fun k => normalizeString k)).filter (fun k => k ≠ "")
  if ks.isEmpty then false
  else
    let H := normalizeString hay
    if ent.matchAll then ks.all (fun k => strIncludes H k) else ks.any (fun k => strIncludes H k)

/-- Model of normalizeExtList from organizer.js: trim, lowercase, strip
one leading dot. -/
def normalizeExtList (list : List String) : List String :=
  list.map (fun e =>
    let s := toLowerStr (trimStr e)
    match s.data with
    | '.' :: rest => String.mk rest
    | _ => s)

/-- Model of getExt from organizer.js: the extension of the name without
its dot, lowercased. -/
def getExt (name : String) : String :=
  toLowerStr (String.mk ((extnameOf name).data.drop 1))

/-- Model of isAcceptedExt from organizer.js: an empty normalized
allow-list accepts everything. -/
def isAcceptedExt (name : String) (extensions : List String) : Bool :=
  let accepted := normalizeExtList extensions
  accepted.isEmpty || accepted.contains (getExt name)

/-- Model of packLabelFromSamples from organizer.js: first segment below
the samples root names the pack; with at least three segments below the
root the second segment names a collection. -/
def packLabelFromSamples (file samplesDir : FsPath) : Option String :=
  if samplesDir.isEmpty then none
  else if samplesDir.isPrefixOf file ∧ samplesDir.length < file.length then
    let segs := (file.drop samplesDir.length).filter (fun s => s ≠ "")
    if segs.isEmpty then none
    else
      let pack := sanitizeFolderName (segs.getD 0 "")
      if 3 ≤ segs.length then some (pack ++ " (" ++ sanitizeFolderName (segs.getD 1 "") ++ ")")
      else some pack
  else none

/-- Model of packLabelFromTemp from organizer.js: a file under a
_temp_ArchiveName scratch directory below the destination root is
labelled by the archive base name with a zip or rar extension stripped. -/
def packLabelFromTemp (file destDir : FsPath) : Option String :=
  if destDir.isPrefixOf file ∧ destDir.length < file.length then
    let firstSeg := (file.drop destDir.length).getD 0 ""
    if strStartsWith firstSeg "_temp_" ∧ 6 < firstSeg.length then
      let m1 := String.mk (firstSeg.data.drop 6)
      let lowered := toLowerStr m1
      let stripped := if strEndsWith lowered ".zip" ∨ strEndsWith lowered ".rar"
        then String.mk (m1.data.take (m1.data.length - 4)) else m1
      some (sanitizeFolderName stripped)
    else none
  else none

-- ---------------------------------------------------------------------
-- Archive entries and the oracle record
-- ---------------------------------------------------------------------

/-- One entry of a ZIP central directory, its path already split at the
separators (raw segments, possibly containing empty, dot or dot-dot
segments). -/
structure ZipEntry where
  epath : List String
  isDir : Bool
deriving DecidableEq

/-- One entry of a RAR listing (the fileHeader name split at separators,
with the directory flag). -/
structure RarEntry where
  name : List String
  isDir : Bool
deriving DecidableEq

/-- External effects and collaborators supplied to a run: the streaming
content hash of a file, the decoded audio duration in seconds, whether a
given move/copy syscall succeeds, and the entry listings of archives. -/
structure Oracles where
  hashOf : FsPath → Except String String
  durOf : FsPath → Option ℚ
  moveOk : FsPath → FsPath → Bool
  zipEntriesOf : FsPath → List ZipEntry
  rarEntriesOf : FsPath → List RarEntry

/-- Hash outcomes are comparable, so that having the same content hash is
a decidable property of two files. -/
instance : DecidableEq (Except String String) := fun a b =>
  match a, b with
  | Except.ok x, Except.ok y =>
    if h : x = y then Decidable.isTrue (by rw [h]) else Decidable.isFalse (by simp [h])
  | Except.error x, Except.error y =>
    if h : x = y then Decidable.isTrue (by rw [h]) else Decidable.isFalse (by simp [h])
  | Except.ok _, Except.error _ => Decidable.isFalse (by simp)
  | Except.error _, Except.ok _ => Decidable.isFalse (by simp)

/-- The configured duplicate policy. -/
inductive DedupMode where
  | skip
  | quarantine
deriving DecidableEq

/-- The dedupe record built at the top of startOrganizing. -/
structure DedupeCfg where
  enabled : Bool
  mode : DedupMode
  preferDest : Bool
  quarantineDir : FsPath
deriving DecidableEq

/-- The run configuration consumed by categorizeFile and startOrganizing;
rules is the flattened _flatCategories list. -/
structure Config where
  samplesDir : FsPath
  destDir : FsPath
  extensions : List String
  rules : List CategoryRule
  checkParentFolder : Bool
  checkLength : Bool
  lengthThreshold : Nat
  keepPackSubfolder : Bool
  sortMidiToFolder : Bool
  midiFolderName : String
  moveFiles : Bool
  dryRun : Bool
  keepArchives : Bool
  dedupe : DedupeCfg

/-- How categorizeFile disposed of one file. -/
inductive Decision where
  | hiddenSkipped
  | extSkipped
  | dupDryRun (firstSeen : FsPath)
  | dupSkipped (firstSeen : FsPath)
  | dupQuarantined (firstSeen : FsPath) (dest : FsPath)
  | classified (dest : FsPath)
  | ioError
deriving DecidableEq

/-- Result of categorizeFile: the filesystem, the dedupe index, the
decision taken, the src/dest record returned to the caller, and the
pre-disambiguation planned destination when one was computed. -/
structure CatOut where
  fs : FS
  index : List (String × FsPath)
  decision : Decision
  moved : Option (FsPath × FsPath)
  planned : Option FsPath
deriving DecidableEq

/-- Outcome of the dedup block: either the file was fully handled there,
or control falls through to classification with the updated state. -/
inductive DedupOut where
  | handled (out : CatOut)
  | toClassify (fs : FS) (index : List (String × FsPath))
deriving DecidableEq

/-- The dedup block of categorizeFile (organizer.js lines 229-254): hash
the file; on a known hash apply dry-run/skip/quarantine; on a fresh hash
record it and continue; on a hashing error continue unhashed. A failed
quarantine move is caught by the same try/catch and also falls through to
classification. -/
def dedupStep (cfg : Config) (orc : Oracles) (fs : FS)
    (index : List (String × FsPath)) (file : FsPath) (fileName : String) : DedupOut :=
  if ¬ cfg.dedupe.enabled then .toClassify fs index
  else
    match orc.hashOf file with
    | .error _ => .toClassify fs index
    | .ok h =>
      match List.lookup h index with
      | some firstSeen =>
        if cfg.dryRun then .handled ⟨fs, index, .dupDryRun firstSeen, none, none⟩
        else match cfg.dedupe.mode with
          | .skip => .handled ⟨fs, index, .dupSkipped firstSeen, none, none⟩
          | .quarantine =>
            let qDir := cfg.dedupe.quarantineDir
            let fs1 := if pathExistsF fs qDir then fs else mkdirRec fs qDir
            let dest := uniqueDestPath fs1 qDir fileName
            if orc.moveOk file dest then
              .handled ⟨moveOrCopySync fs1 file dest cfg.moveFiles, index, .dupQuarantined firstSeen dest, none, none⟩
            else .toClassify fs1 index
      | none => .toClassify fs ((h, file) :: index)

/-- The shared placement tail of categorizeFile: under dry run only report
the planned path; otherwise create the target directory, disambiguate,
and move or copy, returning null on an I/O failure. -/
def placeAt (cfg : Config) (orc : Oracles) (fs : FS) (index : List (String × FsPath))
    (file : FsPath) (fileName : String) (targetPath : FsPath) : CatOut :=
  let destPlanned := targetPath ++ [fileName]
  if cfg.dryRun then ⟨fs, index, .classified destPlanned, some (file, destPlanned), some destPlanned⟩
  else
    let fs1 := mkdirRec fs targetPath
    let dest := uniqueDestPath fs1 targetPath fileName
    if orc.moveOk file dest then
      ⟨moveOrCopySync fs1 file dest cfg.moveFiles, index, .classified dest, some (file, dest), some destPlanned⟩
    else ⟨fs1, index, .ioError, none, some destPlanned⟩

/-- The MIDI folder name: config.midiFolderName or MIDI, trimmed, or MIDI
again when the trim leaves nothing. -/
def midiRootNameOf (cfg : Config) : String :=
  let s := if cfg.midiFolderName = "" then "MIDI" else cfg.midiFolderName
  let t := trimStr s
  if t = "" then "MIDI" else t

/-- The pack label of categorizeFile: from the position under the samples
root, else from a _temp_ scratch directory, observing JS falsiness of the
empty string. -/
def packLabelOf (cfg : Config) (file : FsPath) : Option String :=
  if cfg.keepPackSubfolder then
    match packLabelFromSamples file cfg.samplesDir with
    | some l => if l = "" then packLabelFromTemp file cfg.destDir else some l
    | none => packLabelFromTemp file cfg.destDir
  else none

/-- The classification tail of categorizeFile (organizer.js lines
256-398): keyword scan over the basename, parent-folder fallback, length
suffix, pack label, the MIDI override branch, and final placement. -/
def classifyStep (cfg : Config) (orc : Oracles) (fs : FS) (index : List (String × FsPath))
    (file : FsPath) (fileName : String) (parentFolder : String) (isMidi : Bool) : CatOut :=
  let fileHay := toLowerStr fileName
  let matchedPair : Option CategoryRule × Bool :=
    match cfg.rules.find? (fun ent => matchesKeywords ent fileHay) with
    | some m => (some m, false)
    | none =>
      if cfg.checkParentFolder ∧ parentFolder ≠ "" then
        match cfg.rules.find? (fun ent => matchesKeywords ent (normalizeString parentFolder)) with
        | some m => (some m, true)
        | none => (none, false)
      else (none, false)
  let targetRel0 : FsPath := match matchedPair.1 with
    | some m => if m.main = "" then [m.category] else [m.main, m.category]
    | none => ["Miscellaneous"]
  let targetRel1 := if cfg.checkLength ∧ 0 < cfg.lengthThreshold then
      match orc.durOf file with
      | some dur =>
        if (cfg.lengthThreshold : ℚ) < dur then
          let base := targetRel0.getLastD ""
          let suffix := " - Over " ++ natStr cfg.lengthThreshold ++ " seconds"
          if strEndsWith base suffix then targetRel0 else targetRel0 ++ [base ++ suffix]
        else targetRel0
      | none => targetRel0
    else targetRel0
  let packLabel := packLabelOf cfg file
  if cfg.sortMidiToFolder ∧ isMidi then
    let midiRoot := midiRootNameOf cfg
    let midiRel : FsPath := match packLabel with
      | some l => if l = "" then [midiRoot] else [midiRoot, l]
      | none => [midiRoot]
    placeAt cfg orc fs index file fileName (cfg.destDir ++ midiRel)
  else
    let targetRel2 := match packLabel with
      | some l =>
        if cfg.keepPackSubfolder ∧ l ≠ "" then targetRel1 ++ [sanitizeFolderName l] else targetRel1
      | none => targetRel1
    placeAt cfg orc fs index file fileName (cfg.destDir ++ targetRel2)

/-- Model of categorizeFile from organizer.js: hidden-name check,
extension check, dedup block, then classification and placement. -/
def categorizeFile (cfg : Config) (orc : Oracles) (fs : FS)
    (index : List (String × FsPath)) (file : FsPath) : CatOut :=
  let fileName := file.getLastD ""
  if isHiddenName fileName then ⟨fs, index, .hiddenSkipped, none, none⟩
  else
    let parentFolder := parentFolderOf cfg.samplesDir file
    let ext := getExt fileName
    let isMidi := ext = "mid" ∨ ext = "midi"
    if ¬ isAcceptedExt fileName cfg.extensions then ⟨fs, index, .extSkipped, none, none⟩
    else
      match dedupStep cfg orc fs index file fileName with
      | .handled out => out
      | .toClassify fs1 index1 => classifyStep cfg orc fs1 index1 file fileName parentFolder isMidi

-- ---------------------------------------------------------------------
-- extractZip.js / extractRar: archive expansion and flattening
-- ---------------------------------------------------------------------

/-- Model of Node path resolution of raw segments against an absolute
base: dot-dot pops one level, dot and empty segments vanish. -/
def resolveSegs (base : FsPath) (rel : List String) : FsPath :=
  rel.foldl (fun acc s =>
    if s = ".." then acc.dropLast else if s = "." ∨ s = "" then acc else acc ++ [s]) base

/-- Model of path.join of an absolute directory with a relative entry
name: concatenation followed by normalization of special segments. -/
def joinSegs (base : FsPath) (rel : List String) : FsPath := resolveSegs base rel

/-- The names readdirSync reports inside a directory: the distinct next
segments of every existing file or directory strictly below it. -/
def childNamesOf (fs : FS) (dir : FsPath) : List String :=
  ((fs.files ++ fs.dirs).filterMap (fun p =>
    if dir.isPrefixOf p ∧ dir.length < p.length then some (p.getD dir.length "") else none)).dedup

/-- Whether a readdir child is a directory: recorded as one, or some
entry lives strictly below it. -/
def isDirChild (fs : FS) (dir : FsPath) (c : String) : Bool :=
  decide ((dir ++ [c]) ∈ fs.dirs) ||
  (fs.files ++ fs.dirs).any (fun p => (dir ++ [c]).isPrefixOf p && decide (dir.length + 1 < p.length))

/-- Renaming an entry of the single wrapper directory one level up: a path
strictly below root/c loses the wrapper segment. -/
def hoist (root : FsPath) (c : String) (p : FsPath) : FsPath :=
  if (root ++ [c]).isPrefixOf p ∧ root.length + 1 < p.length then root ++ p.drop (root.length + 1) else p

/-- One iteration of the flattening loop: hoist everything out of the
single wrapper directory root/c, then remove the wrapper. -/
def flattenStep (fs : FS) (root : FsPath) (c : String) : FS :=
  let files1 := (fs.files.map (hoist root c)).filter (fun p => p ≠ root ++ [c])
  let dirs1 := (fs.dirs.map (hoist root c)).filter (fun p => p ≠ root ++ [c])
  FS.mk files1 dirs1

/-- Model of flattenSingleFolders from extractZip.js: while the root holds
exactly one entry which is a non-junk directory, hoist its children up and
delete it; fuel bounds the loop and is sufficient at the call sites. -/
def flattenSingleFolders (fs : FS) (root : FsPath) : Nat → FS
  | 0 => fs
  | fuel + 1 =>
    if ¬ pathExistsF fs root then fs
    else match childNamesOf fs root with
      | [c] =>
        if isDirChild fs root c ∧ ¬ isHiddenOrJunk c then
          flattenSingleFolders (flattenStep fs root c) root fuel
        else fs
      | _ => fs

/-- Total segment count of the filesystem, the fuel bound for the
flattening loops. -/
def totalLen (fs : FS) : Nat :=
  (fs.files.map List.length).sum + (fs.dirs.map List.length).sum

/-- Model of walkFiles from extractZip.js: every existing file strictly
below the root none of whose segments below the root is hidden or junk
(traversal order abstracted). -/
def walkFiles (fs : FS) (root : FsPath) : List FsPath :=
  fs.files.filter (fun p =>
    root.isPrefixOf p ∧ root.length < p.length ∧
    (p.drop root.length).all (fun s => ¬ isHiddenOrJunk s))

/-- Model of extractZip from extractZip.js: create the scratch directory,
stream every non-directory entry whose resolved path stays strictly
inside it (the zip-slip guard skips the others), flatten single-folder
nesting, collect the recursive walk, optionally delete the archive. -/
def extractZip (fs : FS) (zipPath : FsPath) (destDir : FsPath)
    (entries : List ZipEntry) (keepArchives : Bool) : FS × List FsPath :=
  let fs0 := if pathExistsF fs destDir then fs else mkdirRec fs destDir
  let fs1 := entries.foldl (fun acc e =>
      if e.isDir then acc
      else
        let rel := e.epath.dropWhile (fun s => s = "")
        let target := resolveSegs destDir rel
        if destDir.isPrefixOf target ∧ destDir.length < target.length then
          writeFileAt (mkdirRec acc target.dropLast) target
        else acc) fs0
  let fs2 := flattenSingleFolders fs1 destDir (totalLen fs1 + 1)
  let extracted := walkFiles fs2 destDir
  let fs3 := if ¬ keepArchives ∧ pathExistsF fs2 zipPath then removeFileAt fs2 zipPath else fs2
  (fs3, extracted)

/-- Modelled from the spec: the opaque RAR extraction collaborator
(createExtractorFromFile plus extract of node-unrar-js, outside this
repository) streams each non-directory entry to its header path resolved
under the target directory. -/
def rarLibExtract (fs : FS) (dest : FsPath) (entries : List RarEntry) : FS :=
  entries.foldl (fun acc e =>
    if e.isDir then acc
    else
      let target := resolveSegs dest (e.name.dropWhile (fun s => s = ""))
      writeFileAt (mkdirRec acc target.dropLast) target) fs

/-- Model of the inner flattenSingleFolders of extractRar: like the zip
one but with no hidden/junk filter on the wrapper name. -/
def flattenSingleFoldersRar (fs : FS) (root : FsPath) : Nat → FS
  | 0 => fs
  | fuel + 1 =>
    match childNamesOf fs root with
    | [c] =>
      if isDirChild fs root c then flattenSingleFoldersRar (flattenStep fs root c) root fuel
      else fs
    | _ => fs

/-- Model of extractRarArchive from extractRar: create the destination,
let the library extract everything, flatten single-folder nesting, then
report each non-directory header name joined under the destination —
without any traversal guard and without rescanning the flattened tree. -/
def extractRarArchive (fs : FS) (file : FsPath) (destination : FsPath)
    (entries : List RarEntry) (keepArchive : Bool) : FS × List FsPath :=
  let fs0 := if pathExistsF fs destination then fs else mkdirRec fs destination
  let fs1 := rarLibExtract fs0 destination entries
  let fs2 := flattenSingleFoldersRar fs1 destination (totalLen fs1 + 1)
  let extracted := entries.filterMap (fun e =>
    if e.isDir then none else some (joinSegs destination e.name))
  let fs3 := if ¬ keepArchive then removeFileAt fs2 file else fs2
  (fs3, extracted)

/-- A scratch tree consisting of the wrapper directories ds nested in a
chain under root with the files names at the bottom — the shape the
extraction of a single-folder archive produces and the flattening loop
collapses. -/
def chainFS (root : FsPath) (ds : List String) (names : List String) : FS :=
  FS.mk (names.map (fun nm => root ++ ds ++ [nm]))
    ((List.range (ds.length + 1)).map (fun i => root ++ ds.take i))

-- ---------------------------------------------------------------------
-- organizer.js: the run loop
-- ---------------------------------------------------------------------

/-- Model of removeFolderRecursive from organizer.js: delete the path and
everything below it. -/
def removeFolderRecursive (fs : FS) (p : FsPath) : FS :=
  FS.mk (fs.files.filter (fun q => ¬ p.isPrefixOf q))
    (fs.dirs.filter (fun q => ¬ p.isPrefixOf q))

/-- Model of getAllFiles from organizer.js: every existing file strictly
below the directory with no hidden segment below it (traversal order
abstracted). -/
def getAllFilesModel (fs : FS) (dir : FsPath) : List FsPath :=
  fs.files.filter (fun p =>
    dir.isPrefixOf p ∧ dir.length < p.length ∧
    (p.drop dir.length).all (fun s => ¬ isHiddenName s))

/-- The destination pre-seeding pass of startOrganizing: hash every
accepted-extension destination file into the index, first seen wins,
hash errors skipped. -/
def seedIndex (cfg : Config) (orc : Oracles) (files : List FsPath) : List (String × FsPath) :=
  files.foldl (fun idx f =>
    if ¬ isAcceptedExt (f.getLastD "") cfg.extensions then idx
    else match orc.hashOf f with
      | .ok h => if (List.lookup h idx).isSome then idx else (h, f) :: idx
      | .error _ => idx) []

/-- The per-file loop of startOrganizing: archives are skipped under dry
run and otherwise expanded into a scratch directory whose accepted files
are categorized and whose scratch is then removed; plain files are
categorized directly. Returns the filesystem, the index, and the
movedThisRun ledger. -/
def organizeLoop (cfg : Config) (orc : Oracles) :
    FS → List (String × FsPath) → List FsPath → FS × List (String × FsPath) × List (FsPath × FsPath)
  | fs, idx, [] => (fs, idx, [])
  | fs, idx, f :: rest =>
    let fileName := f.getLastD ""
    let ext := getExt fileName
    if ext = "zip" ∨ ext = "rar" then
      if cfg.dryRun then organizeLoop cfg orc fs idx rest
      else
        let base := baseWithoutExt fileName
        let tempDir := cfg.destDir ++ ["_temp_" ++ base]
        let res := if ext = "zip"
          then extractZip fs f tempDir (orc.zipEntriesOf f) cfg.keepArchives
          else extractRarArchive fs f tempDir (orc.rarEntriesOf f) cfg.keepArchives
        let extracted := if res.2.isEmpty then getAllFilesModel res.1 tempDir else res.2
        let st := extracted.foldl (fun st x =>
            if ¬ isAcceptedExt (x.getLastD "") cfg.extensions then st
            else
              let out := categorizeFile cfg orc st.1 st.2.1 x
              (out.fs, out.index, match out.moved with
                | some r => st.2.2 ++ [r]
                | none => st.2.2))
          (res.1, idx, ([] : List (FsPath × FsPath)))
        let fs3 := removeFolderRecursive st.1 tempDir
        let res4 := organizeLoop cfg orc fs3 st.2.1 rest
        (res4.1, res4.2.1, st.2.2 ++ res4.2.2)
    else
      let out := categorizeFile cfg orc fs idx f
      let res4 := organizeLoop cfg orc out.fs out.index rest
      (res4.1, res4.2.1, (match out.moved with
        | some r => [r]
        | none => []) ++ res4.2.2)

/-- Model of startOrganizing from organizer.js: configuration checks,
destination-root creation, quarantine-directory creation, optional
destination pre-seeding, then the per-file loop over the source walk.
None is the configuration-error abort. -/
def startOrganizing (cfg : Config) (orc : Oracles) (fs : FS) :
    Option (FS × List (FsPath × FsPath)) :=
  if ¬ pathExistsF fs cfg.samplesDir then none
  else if cfg.destDir.isEmpty then none
  else
    let fs1 := if pathExistsF fs cfg.destDir then fs else mkdirRec fs cfg.destDir
    let fs2 := if cfg.dedupe.enabled ∧ cfg.dedupe.mode = DedupMode.quarantine ∧ ¬ cfg.dryRun
        ∧ ¬ pathExistsF fs1 cfg.dedupe.quarantineDir
      then mkdirRec fs1 cfg.dedupe.quarantineDir else fs1
    let idx0 := if cfg.dedupe.enabled ∧ cfg.dedupe.preferDest
      then seedIndex cfg orc (getAllFilesModel fs2 cfg.destDir) else []
    let files := getAllFilesModel fs2 cfg.samplesDir
    let res := organizeLoop cfg orc fs2 idx0 files
    some (res.1, res.2.2)

/-- Sequential categorization of a list of plain files (the non-archive
arm of the loop), recording each decision in order; used to state the
dedup-ordering properties. -/
def runFold (cfg : Config) (orc : Oracles) :
    FS → List (String × FsPath) → List FsPath → FS × List (String × FsPath) × List Decision
  | fs, idx, [] => (fs, idx, [])
  | fs, idx, f :: rest =>
    let out := categorizeFile cfg orc fs idx f
    let res := runFold cfg orc out.fs out.index rest
    (res.1, res.2.1, out.decision :: res.2.2)

-- ---------------------------------------------------------------------
-- Lemmas: uniqueDestPath never returns an existing path
-- ---------------------------------------------------------------------

theorem strEq_of_data {s t : String} (h : s.data = t.data) : s = t := by
  cases s
  cases t
  exact congrArg String.mk h

theorem candidateName_inj (b e : String) {i j : Nat}
    (h : candidateName b e i = candidateName b e j) : i = j := by
  have hd := congrArg String.data h
  simp only [candidateName, String.data_append, List.append_assoc] at hd
  have h1 := List.append_cancel_left hd
  have h2 := List.append_cancel_left h1
  have h3 : (natStr i).data = (natStr j).data := List.append_cancel_right h2
  exact natStr_inj i j (strEq_of_data h3)

theorem pathExistsF_iff (fs : FS) (p : FsPath) :
    pathExistsF fs p = true ↔ p ∈ fs.files ∨ p ∈ fs.dirs := by
  simp [pathExistsF]

/-- Pigeonhole: among the first n + 1 disambiguation candidates, where n
bounds the number of existing paths, at least one does not exist. -/
theorem exists_free_candidate (fs : FS) (dir : FsPath) (b e : String) :
    ∃ t, t < fs.files.length + fs.dirs.length + 1 ∧
      pathExistsF fs (dir ++ [candidateName b e (2 + t)]) = false := by
  by_contra hcon
  push_neg at hcon
  set n := fs.files.length + fs.dirs.length with hn
  have hall : ∀ t, t < n + 1 → (dir ++ [candidateName b e (2 + t)]) ∈ (fs.files ++ fs.dirs) := by
    intro t ht
    have := hcon t ht
    have hex : pathExistsF fs (dir ++ [candidateName b e (2 + t)]) = true := by
      cases hpe : pathExistsF fs (dir ++ [candidateName b e (2 + t)]) with
      | false => exact absurd hpe this
      | true => rfl
    rcases (pathExistsF_iff fs _).mp hex with h | h
    · exact List.mem_append.mpr (Or.inl h)
    · exact List.mem_append.mpr (Or.inr h)
  have hinj : Set.InjOn (fun t => dir ++ [candidateName b e (2 + t)]) (Finset.range (n + 1)) := by
    intro x _ y _ hxy
    simp only at hxy
    have h1 := List.append_cancel_left hxy
    have h2 : candidateName b e (2 + x) = candidateName b e (2 + y) := by
      simpa using h1
    have := candidateName_inj b e h2
    omega
  have hmaps : ∀ t ∈ Finset.range (n + 1),
      (fun t => dir ++ [candidateName b e (2 + t)]) t ∈ (fs.files ++ fs.dirs).toFinset := by
    intro t ht
    simp only [List.mem_toFinset]
    exact hall t (Finset.mem_range.mp ht)
  have hcard : (Finset.range (n + 1)).card ≤ ((fs.files ++ fs.dirs).toFinset).card := by
    have himg : (Finset.range (n + 1)).image (fun t => dir ++ [candidateName b e (2 + t)])
        ⊆ (fs.files ++ fs.dirs).toFinset := by
      intro p hp
      rcases Finset.mem_image.mp hp with ⟨t, ht, rfl⟩
      exact hmaps t ht
    calc (Finset.range (n + 1)).card
        = ((Finset.range (n + 1)).image (fun t => dir ++ [candidateName b e (2 + t)])).card := by
          rw [Finset.card_image_of_injOn hinj]
      _ ≤ ((fs.files ++ fs.dirs).toFinset).card := Finset.card_le_card himg
  have hle : ((fs.files ++ fs.dirs).toFinset).card ≤ n := by
    calc ((fs.files ++ fs.dirs).toFinset).card ≤ (fs.files ++ fs.dirs).length :=
        List.toFinset_card_le _
      _ = n := by simp [hn]
  simp only [Finset.card_range] at hcard
  omega

/-- The while loop of uniqueDestPath returns the first free candidate at
or after the starting counter, provided some candidate within the fuel is
free. -/
theorem uniqueLoop_spec (fs : FS) (dir : FsPath) (b e : String) :
    ∀ fuel i, (∃ t, t < fuel ∧ pathExistsF fs (dir ++ [candidateName b e (i + t)]) = false) →
    ∃ t, t < fuel ∧ uniqueLoop fs dir b e i fuel = dir ++ [candidateName b e (i + t)] ∧
      pathExistsF fs (dir ++ [candidateName b e (i + t)]) = false ∧
      ∀ s, s < t → pathExistsF fs (dir ++ [candidateName b e (i + s)]) = true := by
  intro fuel
  induction fuel with
  | zero =>
    intro i h
    rcases h with ⟨t, ht, _⟩
    omega
  | succ fuel ih =>
    intro i h
    by_cases h0 : pathExistsF fs (dir ++ [candidateName b e i]) = true
    · rcases h with ⟨t, ht, hfree⟩
      have ht0 : t ≠ 0 := by
        intro h'
        subst h'
        simp at hfree
        rw [hfree] at h0
        simp at h0
      obtain ⟨t', rfl⟩ : ∃ t', t = t' + 1 := ⟨t - 1, by omega⟩
      have hrec := ih (i + 1) ⟨t', by omega, by
        have : i + 1 + t' = i + (t' + 1) := by omega
        rw [this]
        exact hfree⟩
      rcases hrec with ⟨u, hu, heq, hfree2, hmin⟩
      refine ⟨u + 1, by omega, ?_, ?_, ?_⟩
      · simp only [uniqueLoop, h0, if_true]
        have : i + 1 + u = i + (u + 1) := by omega
        rw [this] at heq
        exact heq
      · have : i + 1 + u = i + (u + 1) := by omega
        rw [this] at hfree2
        exact hfree2
      · intro s hs
        cases s with
        | zero => simpa using h0
        | succ s' =>
          have := hmin s' (by omega)
          have harith : i + 1 + s' = i + (s' + 1) := by omega
          rw [harith] at this
          exact this
    · have h0' : pathExistsF fs (dir ++ [candidateName b e i]) = false := by
        cases hpe : pathExistsF fs (dir ++ [candidateName b e i]) with
        | false => rfl
        | true => exact absurd hpe h0
      refine ⟨0, by omega, ?_, by simpa using h0', by omega⟩
      simp only [uniqueLoop, h0', Bool.false_eq_true, if_false]
      simp

/-- Full characterization of uniqueDestPath: the result never exists; the
plain dir/file is returned when free; otherwise the result is the first
free base (i)ext candidate with i counting up from 2, every smaller
candidate existing. -/
theorem uniqueDestPath_spec (fs : FS) (dir : FsPath) (file : String) :
    pathExistsF fs (uniqueDestPath fs dir file) = false ∧
    (pathExistsF fs (dir ++ [file]) = false → uniqueDestPath fs dir file = dir ++ [file]) ∧
    (pathExistsF fs (dir ++ [file]) = true →
      ∃ i, 2 ≤ i ∧
        uniqueDestPath fs dir file = dir ++ [candidateName (baseWithoutExt file) (extnameOf file) i] ∧
        (∀ j, 2 ≤ j → j < i →
          pathExistsF fs (dir ++ [candidateName (baseWithoutExt file) (extnameOf file) j]) = true)) := by
  by_cases h0 : pathExistsF fs (dir ++ [file]) = true
  · have hfree := exists_free_candidate fs dir (baseWithoutExt file) (extnameOf file)
    rcases hfree with ⟨t0, ht0, hfree0⟩
    have hspec := uniqueLoop_spec fs dir (baseWithoutExt file) (extnameOf file)
      (fs.files.length + fs.dirs.length + 1) 2 ⟨t0, ht0, hfree0⟩
    rcases hspec with ⟨t, _, heq, hfreet, hmin⟩
    have hu : uniqueDestPath fs dir file =
        dir ++ [candidateName (baseWithoutExt file) (extnameOf file) (2 + t)] := by
      simp only [uniqueDestPath, h0, if_true]
      exact heq
    refine ⟨?_, ?_, ?_⟩
    · rw [hu]
      exact hfreet
    · intro hcon
      rw [h0] at hcon
      simp at hcon
    · intro _
      refine ⟨2 + t, by omega, hu, ?_⟩
      intro j hj2 hjt
      have := hmin (j - 2) (by omega)
      have harith : 2 + (j - 2) = j := by omega
      rw [harith] at this
      exact this
  · have h0' : pathExistsF fs (dir ++ [file]) = false := by
      cases hpe : pathExistsF fs (dir ++ [file]) with
      | false => rfl
      | true => exact absurd hpe h0
    have hu : uniqueDestPath fs dir file = dir ++ [file] := by
      simp only [uniqueDestPath, h0', Bool.false_eq_true, if_false]
    refine ⟨by rw [hu]; exact h0', fun _ => hu, fun hcon => absurd hcon h0⟩

/-- The result of uniqueDestPath is always a single name under the
requested directory. -/
theorem uniqueDestPath_shape (fs : FS) (dir : FsPath) (file : String) :
    ∃ nm, uniqueDestPath fs dir file = dir ++ [nm] := by
  rcases uniqueDestPath_spec fs dir file with ⟨_, hfree, hocc⟩
  by_cases h0 : pathExistsF fs (dir ++ [file]) = true
  · rcases hocc h0 with ⟨i, _, heq, _⟩
    exact ⟨_, heq⟩
  · have h0' : pathExistsF fs (dir ++ [file]) = false := by
      cases hpe : pathExistsF fs (dir ++ [file]) with
      | false => rfl
      | true => exact absurd hpe h0
    exact ⟨file, hfree h0'⟩

/-- C1: uniqueDestPath returns a path that does not exist at call time —
dir/file itself when free, otherwise the first free base (i)ext candidate
with the counter strictly increasing from 2 — and consequently a move or
copy to the returned path never removes any other existing file (no
overwrite). -/
theorem claim_C1_uniqueDestPath (fs : FS) (dir : FsPath) (file : String) :
    pathExistsF fs (uniqueDestPath fs dir file) = false ∧
    (∀ src mv p, p ∈ fs.files → p ≠ src →
      p ∈ (moveOrCopySync fs src (uniqueDestPath fs dir file) mv).files) ∧
    (pathExistsF fs (dir ++ [file]) = false → uniqueDestPath fs dir file = dir ++ [file]) ∧
    (pathExistsF fs (dir ++ [file]) = true →
      ∃ i, 2 ≤ i ∧
        uniqueDestPath fs dir file = dir ++ [candidateName (baseWithoutExt file) (extnameOf file) i] ∧
        (∀ j, 2 ≤ j → j < i →
          pathExistsF fs (dir ++ [candidateName (baseWithoutExt file) (extnameOf file) j]) = true)) := by
  rcases uniqueDestPath_spec fs dir file with ⟨hfree, hplain, hocc⟩
  refine ⟨hfree, ?_, hplain, hocc⟩
  intro src mv p hp hne
  have hdest : uniqueDestPath fs dir file ∉ fs.files := by
    intro hmem
    have : pathExistsF fs (uniqueDestPath fs dir file) = true :=
      (pathExistsF_iff fs _).mpr (Or.inl hmem)
    rw [hfree] at this
    exact absurd this (by simp)
  have hpd : p ≠ uniqueDestPath fs dir file := by
    intro h
    exact hdest (h ▸ hp)
  unfold moveOrCopySync
  cases mv with
  | true =>
    simp only [if_true]
    exact List.mem_cons.mpr (Or.inr ((List.mem_erase_of_ne hne).mpr hp))
  | false =>
    simp only [Bool.false_eq_true, if_false]
    exact List.mem_cons.mpr (Or.inr ((List.mem_erase_of_ne hpd).mpr hp))

/-- Witness for C1 at a concrete collision: with d/a.wav and d/a (2).wav
both existing, the result is d/a (3).wav, which does not exist. -/
theorem claim_C1_uniqueDestPath_witness :
    pathExistsF (FS.mk [["d", "a.wav"], ["d", "a (2).wav"]] [["d"]]) (["d"] ++ ["a.wav"]) = true ∧
    pathExistsF (FS.mk [["d", "a.wav"], ["d", "a (2).wav"]] [["d"]])
      (uniqueDestPath (FS.mk [["d", "a.wav"], ["d", "a (2).wav"]] [["d"]]) ["d"] "a.wav") = false ∧
    (∃ i, 2 ≤ i ∧
      uniqueDestPath (FS.mk [["d", "a.wav"], ["d", "a (2).wav"]] [["d"]]) ["d"] "a.wav"
        = ["d"] ++ [candidateName (baseWithoutExt "a.wav") (extnameOf "a.wav") i] ∧
      (∀ j, 2 ≤ j → j < i →
        pathExistsF (FS.mk [["d", "a.wav"], ["d", "a (2).wav"]] [["d"]])
          (["d"] ++ [candidateName (baseWithoutExt "a.wav") (extnameOf "a.wav") j]) = true)) :=
  ⟨by decide,
   (claim_C1_uniqueDestPath (FS.mk [["d", "a.wav"], ["d", "a (2).wav"]] [["d"]]) ["d"] "a.wav").1,
   (claim_C1_uniqueDestPath (FS.mk [["d", "a.wav"], ["d", "a (2).wav"]] [["d"]]) ["d"] "a.wav").2.2.2
     (by decide)⟩

-- ---------------------------------------------------------------------
-- Lemmas and claim theorems for tempo placement (C3)
-- ---------------------------------------------------------------------

theorem stripBpmRev_of_last_not_bpm (dir : FsPath)
    (h : isBpmDirName (dir.getLastD "") = false) :
    stripBpmRev dir.reverse = dir.reverse := by
  cases hd : dir.reverse with
  | nil => simp [stripBpmRev]
  | cons c cs =>
    have hdir : dir = cs.reverse ++ [c] := by
      have := congrArg List.reverse hd
      simpa using this
    have hc : dir.getLastD "" = c := by
      rw [hdir]
      simp [List.getLastD_concat]
    rw [hc] at h
    simp [stripBpmRev, h]

/-- C3 counterexample: a file correctly placed by a first placeTempo call
with a key value is moved again by an identical second call, which nests
a fresh 120 BPM/Bb Min pair inside the key folder and returns a different
path — the claimed idempotence fails as soon as a key value is
requested. -/
theorem claim_C3_counterexample :
    (moveFileToBPMFolder (FS.mk [["base", "f.wav"]] [["base"]])
        ["base", "f.wav"] 120 (some "Bb Min") false).2.1
      = ["base", "120 BPM", "Bb Min", "f.wav"] ∧
    (moveFileToBPMFolder
        (moveFileToBPMFolder (FS.mk [["base", "f.wav"]] [["base"]])
          ["base", "f.wav"] 120 (some "Bb Min") false).1
        ["base", "120 BPM", "Bb Min", "f.wav"] 120 (some "Bb Min") false).2.1
      = ["base", "120 BPM", "Bb Min", "120 BPM", "Bb Min", "f.wav"] ∧
    (moveFileToBPMFolder
        (moveFileToBPMFolder (FS.mk [["base", "f.wav"]] [["base"]])
          ["base", "f.wav"] 120 (some "Bb Min") false).1
        ["base", "120 BPM", "Bb Min", "f.wav"] 120 (some "Bb Min") false).2.2 = true ∧
    (moveFileToBPMFolder
        (moveFileToBPMFolder (FS.mk [["base", "f.wav"]] [["base"]])
          ["base", "f.wav"] 120 (some "Bb Min") false).1
        ["base", "120 BPM", "Bb Min", "f.wav"] 120 (some "Bb Min") false).1
      ≠ (moveFileToBPMFolder (FS.mk [["base", "f.wav"]] [["base"]])
          ["base", "f.wav"] 120 (some "Bb Min") false).1 := by
  decide

/-- C3 amended: idempotence holds exactly in the no-key case — for a file
whose immediate parent is the canonically named tempo folder of the
target value and whose grandparent is not itself tempo-named (the shape a
first placeTempo call produces), a repeated call with the same bpm value
and no key returns the file's current path unchanged and performs no
filesystem move; with a key value the second call is not idempotent (see
the counterexample). -/
theorem claim_C3_placeTempo_idempotent_no_key (fs : FS) (dir : FsPath)
    (pname fname : String) (bpm : Nat) (dryRun : Bool)
    (hparse : bpmNameParse pname = some bpm)
    (hname : pname = natStr bpm ++ " BPM")
    (hgp : isBpmDirName (dir.getLastD "") = false) :
    moveFileToBPMFolder fs (dir ++ [pname, fname]) bpm none dryRun
      = (fs, dir ++ [pname, fname], false) := by
  have hsplit : dir ++ [pname, fname] = (dir ++ [pname]) ++ [fname] := by simp
  have hdl : (dir ++ [pname, fname]).dropLast = dir ++ [pname] := by
    rw [hsplit, List.dropLast_concat]
  have hgl : (dir ++ [pname, fname]).getLastD "" = fname := by
    rw [hsplit]
    simp [List.getLastD_concat]
  have hparent : getParentBpmValue (dir ++ [pname, fname]) = some bpm := by
    simp only [getParentBpmValue, hdl]
    simpa [List.getLastD_concat] using hparse
  have hbpmname : isBpmDirName pname = true := by
    simp [isBpmDirName, hparse]
  have hbase : firstNonBpmAncestorDir (dir ++ [pname, fname]) = dir := by
    simp only [firstNonBpmAncestorDir, hdl]
    have hrev : (dir ++ [pname]).reverse = pname :: dir.reverse := by simp
    rw [hrev]
    simp only [stripBpmRev, hbpmname, if_true]
    rw [stripBpmRev_of_last_not_bpm dir hgp]
    simp
  simp only [moveFileToBPMFolder, hparent, hbase, hgl]
  simp [hname]

/-- Witness for the amended C3 at bpm 120: a second no-key call on a file
sitting in x/120 BPM leaves the filesystem untouched and returns the
current path. -/
theorem claim_C3_placeTempo_idempotent_no_key_witness :
    moveFileToBPMFolder (FS.mk [] []) (["x"] ++ ["120 BPM", "f.wav"]) 120 none false
      = (FS.mk [] [], ["x"] ++ ["120 BPM", "f.wav"], false) :=
  claim_C3_placeTempo_idempotent_no_key (FS.mk [] []) ["x"] "120 BPM" "f.wav" 120 false
    (by decide) (by decide) (by decide)

-- ---------------------------------------------------------------------
-- Lemmas and claim theorem for keyword classification (C7)
-- ---------------------------------------------------------------------

theorem find?_first_split {α : Type} (p : α → Bool) :
    ∀ (l : List α) (r : α), l.find? p = some r →
    ∃ pre post, l = pre ++ r :: post ∧ (∀ e ∈ pre, p e = false) ∧ p r = true := by
  intro l
  induction l with
  | nil => intro r h; simp [List.find?] at h
  | cons a rest ih =>
    intro r h
    by_cases hp : p a = true
    · rw [List.find?_cons_of_pos _ hp] at h
      injection h with h
      subst h
      exact ⟨[], rest, rfl, by simp, hp⟩
    · have hp' : p a = false := by
        cases hpa : p a with
        | false => rfl
        | true => exact absurd hpa hp
      rw [List.find?_cons_of_neg _ (by simp [hp'])] at h
      rcases ih r h with ⟨pre, post, heq, hmiss, hr⟩
      exact ⟨a :: pre, post, by simp [heq], by
        intro e he
        rcases List.mem_cons.mp he with rfl | he
        · exact hp'
        · exact hmiss e he, hr⟩

/-- The normalized nonempty keyword list a rule is matched with. -/
theorem matchesKeywords_iff (ent : CategoryRule) (hay : String)
    (hne : (ent.keywords.map (fun k => normalizeString k)).filter (fun k => k ≠ "") ≠ []) :
    matchesKeywords ent hay = true ↔
      (if ent.matchAll then
        ∀ k ∈ (ent.keywords.map (fun k => normalizeString k)).filter (fun k => k ≠ ""),
          strIncludes (normalizeString hay) k = true
      else
        ∃ k ∈ (ent.keywords.map (fun k => normalizeString k)).filter (fun k => k ≠ ""),
          strIncludes (normalizeString hay) k = true) := by
  unfold matchesKeywords
  have hempty : ((ent.keywords.map (fun k => normalizeString k)).filter (fun k => k ≠ "")).isEmpty = false := by
    cases hl : (ent.keywords.map (fun k => normalizeString k)).filter (fun k => k ≠ "") with
    | nil => exact absurd hl hne
    | cons x xs => simp
  simp only [hempty, Bool.false_eq_true, if_false]
  cases hma : ent.matchAll with
  | true => simp only [if_true, List.all_eq_true]
  | false => simp only [Bool.false_eq_true, if_false, List.any_eq_true]

/-- C7: the classifier scans the flattened rule sequence in configuration
order and the first rule whose keyword predicate succeeds wins; matchAll
demands every normalized nonempty keyword as a substring of the
normalized haystack, otherwise one suffices; and on the rules
Kick:[kick], Drums:[kick, snare] the file kick_01.wav is classified
Kick. -/
theorem claim_C7_first_match_wins :
    (∀ (rules : List CategoryRule) (hay : String) (r : CategoryRule),
      rules.find? (fun ent => matchesKeywords ent hay) = some r →
      ∃ pre post, rules = pre ++ r :: post ∧
        (∀ e ∈ pre, matchesKeywords e hay = false) ∧ matchesKeywords r hay = true) ∧
    (∀ (ent : CategoryRule) (hay : String),
      (ent.keywords.map (fun k => normalizeString k)).filter (fun k => k ≠ "") ≠ [] →
      (matchesKeywords ent hay = true ↔
        (if ent.matchAll then
          ∀ k ∈ (ent.keywords.map (fun k => normalizeString k)).filter (fun k => k ≠ ""),
            strIncludes (normalizeString hay) k = true
        else
          ∃ k ∈ (ent.keywords.map (fun k => normalizeString k)).filter (fun k => k ≠ ""),
            strIncludes (normalizeString hay) k = true))) ∧
    (([CategoryRule.mk "" "Kick" ["kick"] false,
       CategoryRule.mk "" "Drums" ["kick", "snare"] false].find?
        (fun ent => matchesKeywords ent (toLowerStr "kick_01.wav"))).map CategoryRule.category
      = some "Kick") ∧
    ((categorizeFile
        (Config.mk ["s"] ["d"] ["wav"]
          [CategoryRule.mk "" "Kick" ["kick"] false,
           CategoryRule.mk "" "Drums" ["kick", "snare"] false]
          false false 0 false false "" true false true
          (DedupeCfg.mk false DedupMode.skip false ["d", "_Duplicates"]))
        (Oracles.mk (fun _ => Except.ok "h") (fun _ => none) (fun _ _ => true)
          (fun _ => []) (fun _ => []))
        (FS.mk [["s", "kick_01.wav"]] [["s"], ["d"]]) [] ["s", "kick_01.wav"]).decision
      = Decision.classified ["d", "Kick", "kick_01.wav"]) := by
  refine ⟨fun rules hay r h => find?_first_split _ rules r h,
    fun ent hay hne => matchesKeywords_iff ent hay hne, by decide, by decide⟩

/-- Witness for C7 on the spec's own example: the scan of the two rules
against kick_01.wav splits at the Kick rule with no earlier match. -/
theorem claim_C7_first_match_wins_witness :
    ∃ pre post,
      [CategoryRule.mk "" "Kick" ["kick"] false,
       CategoryRule.mk "" "Drums" ["kick", "snare"] false]
        = pre ++ CategoryRule.mk "" "Kick" ["kick"] false :: post ∧
      (∀ e ∈ pre, matchesKeywords e (toLowerStr "kick_01.wav") = false) ∧
      matchesKeywords (CategoryRule.mk "" "Kick" ["kick"] false) (toLowerStr "kick_01.wav") = true :=
  claim_C7_first_match_wins.1
    [CategoryRule.mk "" "Kick" ["kick"] false,
     CategoryRule.mk "" "Drums" ["kick", "snare"] false]
    (toLowerStr "kick_01.wav") (CategoryRule.mk "" "Kick" ["kick"] false) (by decide)

-- ---------------------------------------------------------------------
-- Per-step lemmas about categorizeFile state (C9, C10, C4, C6, C8)
-- ---------------------------------------------------------------------

theorem placeAt_index (cfg : Config) (orc : Oracles) (fs : FS) (idx : List (String × FsPath))
    (file : FsPath) (fileName : String) (t : FsPath) :
    (placeAt cfg orc fs idx file fileName t).index = idx := by
  by_cases hd : cfg.dryRun = true
  · simp only [placeAt]
    rw [if_pos hd]
  · simp only [placeAt]
    rw [if_neg hd]
    by_cases hk : orc.moveOk file (uniqueDestPath (mkdirRec fs t) t fileName) = true
    · rw [if_pos hk]
    · rw [if_neg hk]

theorem classifyStep_index (cfg : Config) (orc : Oracles) (fs : FS) (idx : List (String × FsPath))
    (file : FsPath) (fileName parentFolder : String) (isMidi : Bool) :
    (classifyStep cfg orc fs idx file fileName parentFolder isMidi).index = idx := by
  by_cases hm : cfg.sortMidiToFolder = true ∧ isMidi = true
  · simp only [classifyStep]
    rw [if_pos hm]
    exact placeAt_index ..
  · simp only [classifyStep]
    rw [if_neg hm]
    exact placeAt_index ..

/-- Replacing the dedupe record of the configuration does not change the
classification tail, which never reads it. -/
theorem classifyStep_dedupe_irrel (cfg : Config) (d : DedupeCfg) (orc : Oracles) (fs : FS)
    (idx : List (String × FsPath)) (file : FsPath) (fileName parentFolder : String) (isMidi : Bool) :
    classifyStep { cfg with dedupe := d } orc fs idx file fileName parentFolder isMidi
      = classifyStep cfg orc fs idx file fileName parentFolder isMidi := rfl

/-- C9: when hashing a file fails, categorizeFile behaves exactly as it
would with deduplication disabled — the index gains no entry and the file
falls through to classification — and, being a total function of the
model, the failure never aborts the run (the error is only logged, which
the model does not track). -/
theorem claim_C9_hash_error_falls_through (cfg : Config) (orc : Oracles) (fs : FS)
    (idx : List (String × FsPath)) (file : FsPath) (e : String)
    (_henabled : cfg.dedupe.enabled = true)
    (herr : orc.hashOf file = Except.error e) :
    categorizeFile cfg orc fs idx file
      = categorizeFile { cfg with dedupe := { cfg.dedupe with enabled := false } } orc fs idx file ∧
    (categorizeFile cfg orc fs idx file).index = idx := by
  have hstep : dedupStep cfg orc fs idx file (List.getLastD file "") = DedupOut.toClassify fs idx := by
    unfold dedupStep
    split
    · rfl
    · rw [herr]
  have hstep2 : dedupStep { cfg with dedupe := { cfg.dedupe with enabled := false } } orc fs idx
      file (List.getLastD file "") = DedupOut.toClassify fs idx := rfl
  constructor
  · simp only [categorizeFile]
    rw [hstep, hstep2]
    rfl
  · simp only [categorizeFile]
    rw [hstep]
    by_cases hH : isHiddenName (List.getLastD file "") = true
    · rw [if_pos hH]
    · rw [if_neg hH]
      by_cases hA : ¬ isAcceptedExt (List.getLastD file "") cfg.extensions = true
      · rw [if_pos hA]
      · rw [if_neg hA]
        exact classifyStep_index ..

/-- Witness for C9 at a concrete failing hash. -/
theorem claim_C9_hash_error_falls_through_witness :
    categorizeFile
        (Config.mk ["s"] ["d"] [] [] false false 0 false false "" true false true
          (DedupeCfg.mk true DedupMode.skip false ["d", "_Duplicates"]))
        (Oracles.mk (fun _ => Except.error "EIO") (fun _ => none) (fun _ _ => true)
          (fun _ => []) (fun _ => []))
        (FS.mk [["s", "x.wav"]] [["s"], ["d"]]) [] ["s", "x.wav"]
      = categorizeFile
        { (Config.mk ["s"] ["d"] [] [] false false 0 false false "" true false true
            (DedupeCfg.mk true DedupMode.skip false ["d", "_Duplicates"])) with
          dedupe := { (DedupeCfg.mk true DedupMode.skip false ["d", "_Duplicates"]) with
            enabled := false } }
        (Oracles.mk (fun _ => Except.error "EIO") (fun _ => none) (fun _ _ => true)
          (fun _ => []) (fun _ => []))
        (FS.mk [["s", "x.wav"]] [["s"], ["d"]]) [] ["s", "x.wav"] ∧
    (categorizeFile
        (Config.mk ["s"] ["d"] [] [] false false 0 false false "" true false true
          (DedupeCfg.mk true DedupMode.skip false ["d", "_Duplicates"]))
        (Oracles.mk (fun _ => Except.error "EIO") (fun _ => none) (fun _ _ => true)
          (fun _ => []) (fun _ => []))
        (FS.mk [["s", "x.wav"]] [["s"], ["d"]]) [] ["s", "x.wav"]).index = [] :=
  claim_C9_hash_error_falls_through
    (Config.mk ["s"] ["d"] [] [] false false 0 false false "" true false true
      (DedupeCfg.mk true DedupMode.skip false ["d", "_Duplicates"]))
    (Oracles.mk (fun _ => Except.error "EIO") (fun _ => none) (fun _ _ => true)
      (fun _ => []) (fun _ => []))
    (FS.mk [["s", "x.wav"]] [["s"], ["d"]]) [] ["s", "x.wav"] "EIO" rfl rfl

/-- The dedup block on a fresh hash records the file and falls through. -/
theorem dedupStep_fresh (cfg : Config) (orc : Oracles) (fs : FS) (idx : List (String × FsPath))
    (file : FsPath) (fileName : String) (h : String)
    (henabled : cfg.dedupe.enabled = true)
    (hok : orc.hashOf file = Except.ok h)
    (hmiss : List.lookup h idx = none) :
    dedupStep cfg orc fs idx file fileName = DedupOut.toClassify fs ((h, file) :: idx) := by
  simp [dedupStep, henabled, hok, hmiss]

/-- The dedup block on a known hash applies the configured policy. -/
theorem dedupStep_hit (cfg : Config) (orc : Oracles) (fs : FS) (idx : List (String × FsPath))
    (file : FsPath) (fileName : String) (h : String) (p : FsPath)
    (henabled : cfg.dedupe.enabled = true)
    (hok : orc.hashOf file = Except.ok h)
    (hfound : List.lookup h idx = some p) :
    dedupStep cfg orc fs idx file fileName =
      (if cfg.dryRun = true then
        DedupOut.handled ⟨fs, idx, Decision.dupDryRun p, none, none⟩
      else match cfg.dedupe.mode with
        | DedupMode.skip => DedupOut.handled ⟨fs, idx, Decision.dupSkipped p, none, none⟩
        | DedupMode.quarantine =>
          let fs1 := if pathExistsF fs cfg.dedupe.quarantineDir then fs
            else mkdirRec fs cfg.dedupe.quarantineDir
          let dest := uniqueDestPath fs1 cfg.dedupe.quarantineDir fileName
          if orc.moveOk file dest then
            DedupOut.handled ⟨moveOrCopySync fs1 file dest cfg.moveFiles, idx,
              Decision.dupQuarantined p dest, none, none⟩
          else DedupOut.toClassify fs1 idx) := by
  simp [dedupStep, henabled, hok, hfound]

/-- On a non-hidden, accepted-extension file categorizeFile is the dedup
block followed by classification. -/
theorem categorizeFile_processed (cfg : Config) (orc : Oracles) (fs : FS)
    (idx : List (String × FsPath)) (file : FsPath)
    (hH : isHiddenName (List.getLastD file "") = false)
    (hA : isAcceptedExt (List.getLastD file "") cfg.extensions = true) :
    categorizeFile cfg orc fs idx file =
      match dedupStep cfg orc fs idx file (List.getLastD file "") with
      | DedupOut.handled out => out
      | DedupOut.toClassify fs1 index1 =>
        classifyStep cfg orc fs1 index1 file (List.getLastD file "")
          (parentFolderOf cfg.samplesDir file)
          (decide (getExt (List.getLastD file "") = "mid" ∨ getExt (List.getLastD file "") = "midi")) := by
  simp only [categorizeFile]
  rw [if_neg (by rw [hH]; simp), if_neg (by rw [hA]; simp)]

/-- C10: on a fresh successful hash the index entry (hash, source path)
is recorded before the move is attempted — it is present in the output
for every possible move/copy outcome, including failure — and any later
file with the same hash is then handled as a duplicate of that source
path, whether or not that source was ever placed. -/
theorem claim_C10_index_recorded_before_move (cfg : Config) (orc : Oracles) (fs : FS)
    (idx : List (String × FsPath)) (file : FsPath) (h : String)
    (henabled : cfg.dedupe.enabled = true)
    (hH : isHiddenName (List.getLastD file "") = false)
    (hA : isAcceptedExt (List.getLastD file "") cfg.extensions = true)
    (hok : orc.hashOf file = Except.ok h)
    (hmiss : List.lookup h idx = none) :
    (∀ mk : FsPath → FsPath → Bool,
      (categorizeFile cfg { orc with moveOk := mk } fs idx file).index = (h, file) :: idx) ∧
    (∀ (g : FsPath) (fs₂ : FS),
      isHiddenName (List.getLastD g "") = false →
      isAcceptedExt (List.getLastD g "") cfg.extensions = true →
      orc.hashOf g = Except.ok h →
      (∀ d, orc.moveOk g d = true) →
      ((categorizeFile cfg orc fs₂ ((h, file) :: idx) g).decision = Decision.dupDryRun file ∨
       (categorizeFile cfg orc fs₂ ((h, file) :: idx) g).decision = Decision.dupSkipped file ∨
       ∃ q, (categorizeFile cfg orc fs₂ ((h, file) :: idx) g).decision
          = Decision.dupQuarantined file q)) := by
  constructor
  · intro mk
    have hf := dedupStep_fresh cfg { orc with moveOk := mk } fs idx file (List.getLastD file "")
      h henabled hok hmiss
    rw [categorizeFile_processed _ _ _ _ _ hH hA, hf]
    exact classifyStep_index ..
  · intro g fs₂ hHg hAg hokg hmv
    have hfound : List.lookup h ((h, file) :: idx) = some file := by simp
    have hd := dedupStep_hit cfg orc fs₂ ((h, file) :: idx) g (List.getLastD g "")
      h file henabled hokg hfound
    rw [categorizeFile_processed _ _ _ _ _ hHg hAg, hd]
    by_cases hdry : cfg.dryRun = true
    · rw [if_pos hdry]
      left
      rfl
    · rw [if_neg hdry]
      cases hmode : cfg.dedupe.mode with
      | skip =>
        right
        left
        rfl
      | quarantine =>
        right
        right
        refine ⟨uniqueDestPath
          (if pathExistsF fs₂ cfg.dedupe.quarantineDir then fs₂
            else mkdirRec fs₂ cfg.dedupe.quarantineDir)
          cfg.dedupe.quarantineDir (List.getLastD g ""), ?_⟩
        simp only [hmv]
        rfl

/-- Witness for C10: with a failing move syscall the index still gains
the entry, and a second file with the same hash is skipped as a duplicate
of the first. -/
theorem claim_C10_index_recorded_before_move_witness :
    (categorizeFile
        (Config.mk ["s"] ["d"] [] [] false false 0 false false "" true false true
          (DedupeCfg.mk true DedupMode.skip false ["d", "_Duplicates"]))
        { (Oracles.mk (fun _ => Except.ok "h1") (fun _ => none) (fun _ _ => true)
            (fun _ => []) (fun _ => [])) with moveOk := fun _ _ => false }
        (FS.mk [["s", "a.wav"]] [["s"], ["d"]]) [] ["s", "a.wav"]).index
      = [("h1", ["s", "a.wav"])] ∧
    ((categorizeFile
        (Config.mk ["s"] ["d"] [] [] false false 0 false false "" true false true
          (DedupeCfg.mk true DedupMode.skip false ["d", "_Duplicates"]))
        (Oracles.mk (fun _ => Except.ok "h1") (fun _ => none) (fun _ _ => true)
          (fun _ => []) (fun _ => []))
        (FS.mk [["s", "b.wav"]] [["s"], ["d"]]) [("h1", ["s", "a.wav"])] ["s", "b.wav"]).decision
        = Decision.dupDryRun ["s", "a.wav"] ∨
     (categorizeFile
        (Config.mk ["s"] ["d"] [] [] false false 0 false false "" true false true
          (DedupeCfg.mk true DedupMode.skip false ["d", "_Duplicates"]))
        (Oracles.mk (fun _ => Except.ok "h1") (fun _ => none) (fun _ _ => true)
          (fun _ => []) (fun _ => []))
        (FS.mk [["s", "b.wav"]] [["s"], ["d"]]) [("h1", ["s", "a.wav"])] ["s", "b.wav"]).decision
        = Decision.dupSkipped ["s", "a.wav"] ∨
     ∃ q, (categorizeFile
        (Config.mk ["s"] ["d"] [] [] false false 0 false false "" true false true
          (DedupeCfg.mk true DedupMode.skip false ["d", "_Duplicates"]))
        (Oracles.mk (fun _ => Except.ok "h1") (fun _ => none) (fun _ _ => true)
          (fun _ => []) (fun _ => []))
        (FS.mk [["s", "b.wav"]] [["s"], ["d"]]) [("h1", ["s", "a.wav"])] ["s", "b.wav"]).decision
        = Decision.dupQuarantined ["s", "a.wav"] q) :=
  ⟨(claim_C10_index_recorded_before_move
      (Config.mk ["s"] ["d"] [] [] false false 0 false false "" true false true
        (DedupeCfg.mk true DedupMode.skip false ["d", "_Duplicates"]))
      (Oracles.mk (fun _ => Except.ok "h1") (fun _ => none) (fun _ _ => true)
        (fun _ => []) (fun _ => []))
      (FS.mk [["s", "a.wav"]] [["s"], ["d"]]) [] ["s", "a.wav"] "h1"
      rfl (by decide) (by decide) rfl rfl).1 (fun _ _ => false),
   (claim_C10_index_recorded_before_move
      (Config.mk ["s"] ["d"] [] [] false false 0 false false "" true false true
        (DedupeCfg.mk true DedupMode.skip false ["d", "_Duplicates"]))
      (Oracles.mk (fun _ => Except.ok "h1") (fun _ => none) (fun _ _ => true)
        (fun _ => []) (fun _ => []))
      (FS.mk [["s", "a.wav"]] [["s"], ["d"]]) [] ["s", "a.wav"] "h1"
      rfl (by decide) (by decide) rfl rfl).2
     ["s", "b.wav"] (FS.mk [["s", "b.wav"]] [["s"], ["d"]]) (by decide) (by decide) rfl
     (fun _ => rfl)⟩

theorem placeAt_planned (cfg : Config) (orc : Oracles) (fs : FS) (idx : List (String × FsPath))
    (file : FsPath) (fileName : String) (t : FsPath) :
    (placeAt cfg orc fs idx file fileName t).planned = some (t ++ [fileName]) := by
  by_cases hd : cfg.dryRun = true
  · simp only [placeAt]
    rw [if_pos hd]
  · simp only [placeAt]
    rw [if_neg hd]
    by_cases hk : orc.moveOk file (uniqueDestPath (mkdirRec fs t) t fileName) = true
    · rw [if_pos hk]
    · rw [if_neg hk]

/-- With the MIDI redirection enabled and a MIDI file, classification
collapses to placement under destDir/midiRoot with an optional pack
segment. -/
theorem classifyStep_midi (cfg : Config) (orc : Oracles) (fs : FS) (idx : List (String × FsPath))
    (file : FsPath) (fileName parentFolder : String) (isMidi : Bool)
    (hsort : cfg.sortMidiToFolder = true) (him : isMidi = true) :
    classifyStep cfg orc fs idx file fileName parentFolder isMidi
      = placeAt cfg orc fs idx file fileName
          (cfg.destDir ++ (midiRootNameOf cfg ::
            (match packLabelOf cfg file with
             | some l => if l = "" then [] else [l]
             | none => []))) := by
  subst him
  simp only [classifyStep]
  rw [if_pos ⟨hsort, trivial⟩]
  cases hp : packLabelOf cfg file with
  | none => simp [hp]
  | some l =>
    by_cases hl : l = ""
    · simp [hp, hl]
    · simp [hp, hl]

/-- C8: for a MIDI-extension file that reaches classification while
sortMidiToFolder is on, the planned target is
destDir/midiRoot[/packLabel]/fileName, and the result is invariant under
any change of the category rules, the parent-folder flag, and the length
settings including the duration oracle — those rules are not applied to
MIDI files. -/
theorem claim_C8_midi_override (cfg : Config) (orc : Oracles) (fs fs1 : FS)
    (idx idx1 : List (String × FsPath)) (file : FsPath)
    (hsort : cfg.sortMidiToFolder = true)
    (hmidi : getExt (List.getLastD file "") = "mid" ∨ getExt (List.getLastD file "") = "midi")
    (hH : isHiddenName (List.getLastD file "") = false)
    (hA : isAcceptedExt (List.getLastD file "") cfg.extensions = true)
    (hcont : dedupStep cfg orc fs idx file (List.getLastD file "") = DedupOut.toClassify fs1 idx1) :
    (categorizeFile cfg orc fs idx file).planned
      = some (cfg.destDir ++ (midiRootNameOf cfg ::
          (match packLabelOf cfg file with
           | some l => if l = "" then [] else [l]
           | none => [])) ++ [List.getLastD file ""]) ∧
    (∀ (rules' : List CategoryRule) (cpf' cl' : Bool) (lt' : Nat) (dur' : FsPath → Option ℚ),
      categorizeFile
          { cfg with
            rules := rules', checkParentFolder := cpf', checkLength := cl', lengthThreshold := lt' }
          { orc with durOf := dur' } fs idx file
        = categorizeFile cfg orc fs idx file) := by
  have hdec : decide (getExt (List.getLastD file "") = "mid"
      ∨ getExt (List.getLastD file "") = "midi") = true := decide_eq_true hmidi
  constructor
  · rw [categorizeFile_processed _ _ _ _ _ hH hA, hcont]
    dsimp only
    rw [classifyStep_midi _ _ _ _ _ _ _ _ hsort hdec]
    rw [placeAt_planned]
  · intro rules' cpf' cl' lt' dur'
    rw [categorizeFile_processed _ _ _ _ _ hH hA, hcont]
    rw [categorizeFile_processed { cfg with rules := rules', checkParentFolder := cpf', checkLength := cl', lengthThreshold := lt' } { orc with durOf := dur' } _ _ _ hH hA]
    have hcont2 : dedupStep { cfg with rules := rules', checkParentFolder := cpf', checkLength := cl', lengthThreshold := lt' } { orc with durOf := dur' } fs idx file (List.getLastD file "") = DedupOut.toClassify fs1 idx1 := hcont
    rw [hcont2]
    dsimp only
    rw [classifyStep_midi _ _ _ _ _ _ _ _ hsort hdec]
    rw [classifyStep_midi { cfg with rules := rules', checkParentFolder := cpf', checkLength := cl', lengthThreshold := lt' } { orc with durOf := dur' } _ _ _ _ _ _ hsort hdec]
    rfl

/-- Witness for C8: a .mid file under the samples root lands under
destDir/MIDI regardless of the category rules. -/
theorem claim_C8_midi_override_witness :
    (categorizeFile
        (Config.mk ["s"] ["d"] [] [CategoryRule.mk "" "Kick" ["kick"] false]
          false false 0 false true "" true false true
          (DedupeCfg.mk false DedupMode.skip false ["d", "_Duplicates"]))
        (Oracles.mk (fun _ => Except.ok "h") (fun _ => none) (fun _ _ => true)
          (fun _ => []) (fun _ => []))
        (FS.mk [["s", "tune.mid"]] [["s"], ["d"]]) [] ["s", "tune.mid"]).planned
      = some ((Config.mk ["s"] ["d"] [] [CategoryRule.mk "" "Kick" ["kick"] false]
            false false 0 false true "" true false true
            (DedupeCfg.mk false DedupMode.skip false ["d", "_Duplicates"])).destDir
          ++ (midiRootNameOf (Config.mk ["s"] ["d"] [] [CategoryRule.mk "" "Kick" ["kick"] false]
            false false 0 false true "" true false true
            (DedupeCfg.mk false DedupMode.skip false ["d", "_Duplicates"])) ::
            (match packLabelOf (Config.mk ["s"] ["d"] [] [CategoryRule.mk "" "Kick" ["kick"] false]
                false false 0 false true "" true false true
                (DedupeCfg.mk false DedupMode.skip false ["d", "_Duplicates"])) ["s", "tune.mid"] with
             | some l => if l = "" then [] else [l]
             | none => []))
          ++ [List.getLastD ["s", "tune.mid"] ""]) :=
  (claim_C8_midi_override
    (Config.mk ["s"] ["d"] [] [CategoryRule.mk "" "Kick" ["kick"] false]
      false false 0 false true "" true false true
      (DedupeCfg.mk false DedupMode.skip false ["d", "_Duplicates"]))
    (Oracles.mk (fun _ => Except.ok "h") (fun _ => none) (fun _ _ => true)
      (fun _ => []) (fun _ => []))
    (FS.mk [["s", "tune.mid"]] [["s"], ["d"]])
    (FS.mk [["s", "tune.mid"]] [["s"], ["d"]]) [] [] ["s", "tune.mid"]
    rfl (by decide) (by decide) (by decide) rfl).1

theorem placeAt_decision_classified (cfg : Config) (orc : Oracles) (fs : FS)
    (idx : List (String × FsPath)) (file : FsPath) (fileName : String) (t : FsPath)
    (hmv : ∀ d, orc.moveOk file d = true) :
    ∃ d, (placeAt cfg orc fs idx file fileName t).decision = Decision.classified d := by
  by_cases hd : cfg.dryRun = true
  · refine ⟨t ++ [fileName], ?_⟩
    simp only [placeAt]
    rw [if_pos hd]
  · refine ⟨uniqueDestPath (mkdirRec fs t) t fileName, ?_⟩
    simp only [placeAt]
    rw [if_neg hd, if_pos (hmv _)]

theorem classifyStep_decision_classified (cfg : Config) (orc : Oracles) (fs : FS)
    (idx : List (String × FsPath)) (file : FsPath) (fileName parentFolder : String) (isMidi : Bool)
    (hmv : ∀ d, orc.moveOk file d = true) :
    ∃ d, (classifyStep cfg orc fs idx file fileName parentFolder isMidi).decision
      = Decision.classified d := by
  by_cases hm : cfg.sortMidiToFolder = true ∧ isMidi = true
  · simp only [classifyStep]
    rw [if_pos hm]
    exact placeAt_decision_classified _ _ _ _ _ _ _ hmv
  · simp only [classifyStep]
    rw [if_neg hm]
    exact placeAt_decision_classified _ _ _ _ _ _ _ hmv

/-- A file whose hash is already indexed is disposed of by the duplicate
policy: full-output equations for dry run and skip (fs untouched, file
left in place), and for quarantine a destination directly under the
quarantine directory. -/
theorem categorizeFile_hit (cfg : Config) (orc : Oracles) (fs : FS)
    (idx : List (String × FsPath)) (file : FsPath) (h : String) (p : FsPath)
    (henabled : cfg.dedupe.enabled = true)
    (hH : isHiddenName (List.getLastD file "") = false)
    (hA : isAcceptedExt (List.getLastD file "") cfg.extensions = true)
    (hok : orc.hashOf file = Except.ok h)
    (hfound : List.lookup h idx = some p)
    (hmv : ∀ d, orc.moveOk file d = true) :
    (cfg.dryRun = true →
      categorizeFile cfg orc fs idx file = ⟨fs, idx, Decision.dupDryRun p, none, none⟩) ∧
    (cfg.dryRun = false → cfg.dedupe.mode = DedupMode.skip →
      categorizeFile cfg orc fs idx file = ⟨fs, idx, Decision.dupSkipped p, none, none⟩) ∧
    (cfg.dryRun = false → cfg.dedupe.mode = DedupMode.quarantine →
      ∃ nm, (categorizeFile cfg orc fs idx file).decision
        = Decision.dupQuarantined p (cfg.dedupe.quarantineDir ++ [nm])) := by
  rw [categorizeFile_processed _ _ _ _ _ hH hA,
    dedupStep_hit _ _ _ _ _ _ _ _ henabled hok hfound]
  refine ⟨?_, ?_, ?_⟩
  · intro hdry
    rw [if_pos hdry]
  · intro hdry hmode
    rw [if_neg (by rw [hdry]; simp), hmode]
  · intro hdry hmode
    rw [if_neg (by rw [hdry]; simp), hmode]
    dsimp only
    rw [if_pos (hmv _)]
    have := uniqueDestPath_shape
      (if pathExistsF fs cfg.dedupe.quarantineDir then fs else mkdirRec fs cfg.dedupe.quarantineDir)
      cfg.dedupe.quarantineDir (List.getLastD file "")
    rcases this with ⟨nm, hnm⟩
    exact ⟨nm, by rw [hnm]⟩

/-- A file with a fresh hash records its entry and is classified. -/
theorem categorizeFile_fresh (cfg : Config) (orc : Oracles) (fs : FS)
    (idx : List (String × FsPath)) (file : FsPath) (h : String)
    (henabled : cfg.dedupe.enabled = true)
    (hH : isHiddenName (List.getLastD file "") = false)
    (hA : isAcceptedExt (List.getLastD file "") cfg.extensions = true)
    (hok : orc.hashOf file = Except.ok h)
    (hmiss : List.lookup h idx = none)
    (hmv : ∀ d, orc.moveOk file d = true) :
    (categorizeFile cfg orc fs idx file).index = (h, file) :: idx ∧
    ∃ d, (categorizeFile cfg orc fs idx file).decision = Decision.classified d := by
  rw [categorizeFile_processed _ _ _ _ _ hH hA,
    dedupStep_fresh _ _ _ _ _ _ _ henabled hok hmiss]
  dsimp only
  exact ⟨classifyStep_index .., classifyStep_decision_classified _ _ _ _ _ _ _ _ hmv⟩

/-- Under the per-file hypotheses the output index is the input index
with the file's hash inserted when fresh. -/
theorem categorizeFile_index_char (cfg : Config) (orc : Oracles) (fs : FS)
    (idx : List (String × FsPath)) (file : FsPath) (h : String)
    (henabled : cfg.dedupe.enabled = true)
    (hH : isHiddenName (List.getLastD file "") = false)
    (hA : isAcceptedExt (List.getLastD file "") cfg.extensions = true)
    (hok : orc.hashOf file = Except.ok h)
    (hmv : ∀ d, orc.moveOk file d = true) :
    (categorizeFile cfg orc fs idx file).index
      = if (List.lookup h idx).isSome then idx else (h, file) :: idx := by
  cases hl : List.lookup h idx with
  | none =>
    simp only [hl, Option.isSome_none, Bool.false_eq_true, if_false]
    exact (categorizeFile_fresh cfg orc fs idx file h henabled hH hA hok hl hmv).1
  | some p =>
    simp only [hl, Option.isSome_some, if_true]
    rcases categorizeFile_hit cfg orc fs idx file h p henabled hH hA hok hl hmv
      with ⟨hdry, hskip, hquar⟩
    by_cases hd : cfg.dryRun = true
    · rw [hdry hd]
    · have hd' : cfg.dryRun = false := by
        cases hdd : cfg.dryRun with
        | false => rfl
        | true => exact absurd hdd hd
      cases hmode : cfg.dedupe.mode with
      | skip => rw [hskip hd' hmode]
      | quarantine =>
        rw [categorizeFile_processed _ _ _ _ _ hH hA,
          dedupStep_hit _ _ _ _ _ _ _ _ henabled hok hl]
        rw [if_neg (by rw [hd']; simp), hmode]
        dsimp only
        rw [if_pos (hmv _)]

/-- Index characterization of a run over plain files: a hash maps to its
entry in the starting index, or else to the first file of the list that
produced it. -/
theorem runFold_lookup (cfg : Config) (orc : Oracles)
    (henabled : cfg.dedupe.enabled = true)
    (hmv : ∀ g d, orc.moveOk g d = true) :
    ∀ (files : List FsPath) (fs : FS) (idx : List (String × FsPath)),
    (∀ g ∈ files, isHiddenName (List.getLastD g "") = false ∧
      isAcceptedExt (List.getLastD g "") cfg.extensions = true ∧
      ∃ hg, orc.hashOf g = Except.ok hg) →
    ∀ h : String,
    List.lookup h (runFold cfg orc fs idx files).2.1
      = (List.lookup h idx).or (files.find? (fun g => decide (orc.hashOf g = Except.ok h))) := by
  intro files
  induction files with
  | nil =>
    intro fs idx _ h
    simp [runFold]
  | cons f rest ih =>
    intro fs idx hall h
    obtain ⟨hHf, hAf, hf, hokf⟩ := hall f (by simp)
    have hrest : ∀ g ∈ rest, isHiddenName (List.getLastD g "") = false ∧
        isAcceptedExt (List.getLastD g "") cfg.extensions = true ∧
        ∃ hg, orc.hashOf g = Except.ok hg := fun g hg => hall g (by simp [hg])
    simp only [runFold]
    rw [ih _ _ hrest h]
    rw [categorizeFile_index_char cfg orc fs idx f hf henabled hHf hAf hokf (hmv f)]
    by_cases heq : hf = h
    · subst heq
      have hpf : (fun g => decide (orc.hashOf g = Except.ok hf)) f = true := by
        simp [hokf]
      have hfind : List.find? (fun g => decide (orc.hashOf g = Except.ok hf)) (f :: rest)
          = some f := List.find?_cons_of_pos _ hpf
      rw [hfind]
      cases hl : List.lookup hf idx with
      | some p =>
        simp only [hl, Option.isSome_some, if_true, hl]
        simp
      | none =>
        simp only [hl, Option.isSome_none, Bool.false_eq_true, if_false]
        simp [List.lookup]
    · have hpf : (fun g => decide (orc.hashOf g = Except.ok h)) f = false := by
        simp only [decide_eq_false_iff_not]
        rw [hokf]
        intro hcon
        exact heq (by injection hcon)
      have hfind : List.find? (fun g => decide (orc.hashOf g = Except.ok h)) (f :: rest)
          = List.find? (fun g => decide (orc.hashOf g = Except.ok h)) rest :=
        List.find?_cons_of_neg _ (by simp [hpf])
      rw [hfind]
      cases hl : List.lookup hf idx with
      | some p =>
        simp only [hl, Option.isSome_some, if_true]
      | none =>
        simp only [hl, Option.isSome_none, Bool.false_eq_true, if_false]
        have hbe : (h == hf) = false := by
          simp only [beq_eq_false_iff_ne, ne_eq]
          intro hc
          exact heq hc.symm
        have : List.lookup h ((hf, f) :: idx) = List.lookup h idx := by
          simp [List.lookup, hbe]
        rw [this]

/-- C4: with dedup enabled, among the files of one run sharing a content
hash only the first in processing order reaches classification; every
later one is handled by exactly the configured policy — reported only
under dry run and skipped in place, skipped in place under skip, moved
into the quarantine directory with collision disambiguation under
quarantine — never more than one of these. -/
theorem claim_C4_dedup_policy (cfg : Config) (orc : Oracles) (fs : FS)
    (pre : List FsPath) (f : FsPath)
    (henabled : cfg.dedupe.enabled = true)
    (hmv : ∀ g d, orc.moveOk g d = true)
    (hall : ∀ g ∈ pre ++ [f], isHiddenName (List.getLastD g "") = false ∧
      isAcceptedExt (List.getLastD g "") cfg.extensions = true ∧
      ∃ hg, orc.hashOf g = Except.ok hg) :
    ((∃ g ∈ pre, orc.hashOf g = orc.hashOf f) →
      ∃ p, pre.find? (fun g => decide (orc.hashOf g = orc.hashOf f)) = some p ∧
        (cfg.dryRun = true →
          categorizeFile cfg orc (runFold cfg orc fs [] pre).1 (runFold cfg orc fs [] pre).2.1 f
            = ⟨(runFold cfg orc fs [] pre).1, (runFold cfg orc fs [] pre).2.1,
                Decision.dupDryRun p, none, none⟩) ∧
        (cfg.dryRun = false → cfg.dedupe.mode = DedupMode.skip →
          categorizeFile cfg orc (runFold cfg orc fs [] pre).1 (runFold cfg orc fs [] pre).2.1 f
            = ⟨(runFold cfg orc fs [] pre).1, (runFold cfg orc fs [] pre).2.1,
                Decision.dupSkipped p, none, none⟩) ∧
        (cfg.dryRun = false → cfg.dedupe.mode = DedupMode.quarantine →
          ∃ nm, (categorizeFile cfg orc (runFold cfg orc fs [] pre).1
              (runFold cfg orc fs [] pre).2.1 f).decision
            = Decision.dupQuarantined p (cfg.dedupe.quarantineDir ++ [nm]))) ∧
    ((¬ ∃ g ∈ pre, orc.hashOf g = orc.hashOf f) →
      ∃ d, (categorizeFile cfg orc (runFold cfg orc fs [] pre).1
          (runFold cfg orc fs [] pre).2.1 f).decision = Decision.classified d) := by
  obtain ⟨hHf, hAf, hf, hokf⟩ := hall f (by simp)
  have hpre : ∀ g ∈ pre, isHiddenName (List.getLastD g "") = false ∧
      isAcceptedExt (List.getLastD g "") cfg.extensions = true ∧
      ∃ hg, orc.hashOf g = Except.ok hg := fun g hg => hall g (by simp [hg])
  have hlk := runFold_lookup cfg orc henabled hmv pre fs [] hpre hf
  have hlk' : List.lookup hf (runFold cfg orc fs [] pre).2.1
      = pre.find? (fun g => decide (orc.hashOf g = Except.ok hf)) := by
    simpa using hlk
  have hfunext : (fun g => decide (orc.hashOf g = orc.hashOf f))
      = (fun g => decide (orc.hashOf g = Except.ok hf)) := by
    funext g
    rw [hokf]
  constructor
  · rintro ⟨g0, hg0, hg0eq⟩
    have hex : (pre.find? (fun g => decide (orc.hashOf g = orc.hashOf f))).isSome = true := by
      rw [List.find?_isSome]
      exact ⟨g0, hg0, by simpa using hg0eq⟩
    obtain ⟨p, hp⟩ := Option.isSome_iff_exists.mp hex
    have hp' : pre.find? (fun g => decide (orc.hashOf g = Except.ok hf)) = some p := by
      rw [← hfunext]
      exact hp
    have hfound : List.lookup hf (runFold cfg orc fs [] pre).2.1 = some p := by
      rw [hlk', hp']
    rcases categorizeFile_hit cfg orc (runFold cfg orc fs [] pre).1
        (runFold cfg orc fs [] pre).2.1 f hf p henabled hHf hAf hokf hfound (hmv f)
      with ⟨h1, h2, h3⟩
    exact ⟨p, hp, h1, h2, h3⟩
  · intro hno
    have hnone : pre.find? (fun g => decide (orc.hashOf g = Except.ok hf)) = none := by
      rw [List.find?_eq_none]
      intro g hg hcon
      exact hno ⟨g, hg, by rw [hokf]; exact of_decide_eq_true hcon⟩
    have hmiss : List.lookup hf (runFold cfg orc fs [] pre).2.1 = none := by
      rw [hlk', hnone]
    exact (categorizeFile_fresh cfg orc (runFold cfg orc fs [] pre).1
      (runFold cfg orc fs [] pre).2.1 f hf henabled hHf hAf hokf hmiss (hmv f)).2

/-- Witness for C4: two same-hash files under skip policy — the second is
skipped as a duplicate of the first. -/
theorem claim_C4_dedup_policy_witness :
    (categorizeFile
        (Config.mk ["s"] ["d"] [] [] false false 0 false false "" true false true
          (DedupeCfg.mk true DedupMode.skip false ["d", "_Duplicates"]))
        (Oracles.mk (fun _ => Except.ok "h1") (fun _ => none) (fun _ _ => true)
          (fun _ => []) (fun _ => []))
        (runFold
          (Config.mk ["s"] ["d"] [] [] false false 0 false false "" true false true
            (DedupeCfg.mk true DedupMode.skip false ["d", "_Duplicates"]))
          (Oracles.mk (fun _ => Except.ok "h1") (fun _ => none) (fun _ _ => true)
            (fun _ => []) (fun _ => []))
          (FS.mk [["s", "a.wav"], ["s", "b.wav"]] [["s"], ["d"]]) [] [["s", "a.wav"]]).1
        (runFold
          (Config.mk ["s"] ["d"] [] [] false false 0 false false "" true false true
            (DedupeCfg.mk true DedupMode.skip false ["d", "_Duplicates"]))
          (Oracles.mk (fun _ => Except.ok "h1") (fun _ => none) (fun _ _ => true)
            (fun _ => []) (fun _ => []))
          (FS.mk [["s", "a.wav"], ["s", "b.wav"]] [["s"], ["d"]]) [] [["s", "a.wav"]]).2.1
        ["s", "b.wav"]).decision
      = Decision.dupSkipped ["s", "a.wav"] := by
  have h := (claim_C4_dedup_policy
    (Config.mk ["s"] ["d"] [] [] false false 0 false false "" true false true
      (DedupeCfg.mk true DedupMode.skip false ["d", "_Duplicates"]))
    (Oracles.mk (fun _ => Except.ok "h1") (fun _ => none) (fun _ _ => true)
      (fun _ => []) (fun _ => []))
    (FS.mk [["s", "a.wav"], ["s", "b.wav"]] [["s"], ["d"]]) [["s", "a.wav"]] ["s", "b.wav"]
    rfl (fun _ _ => rfl)
    (by
      intro g hg
      simp only [List.mem_append, List.mem_singleton, List.mem_cons, List.not_mem_nil,
        or_false] at hg
      rcases hg with rfl | rfl
      · exact ⟨by decide, by decide, "h1", rfl⟩
      · exact ⟨by decide, by decide, "h1", rfl⟩)).1
    ⟨["s", "a.wav"], by simp, rfl⟩
  obtain ⟨p, hp, _, hskip, _⟩ := h
  have h2 : List.find? (fun g => decide
      ((Oracles.mk (fun _ => Except.ok "h1") (fun _ => none) (fun _ _ => true)
        (fun _ => []) (fun _ => [])).hashOf g
      = (Oracles.mk (fun _ => Except.ok "h1") (fun _ => none) (fun _ _ => true)
        (fun _ => []) (fun _ => [])).hashOf ["s", "b.wav"])) [["s", "a.wav"]]
      = some ["s", "a.wav"] := by decide
  have hpv : p = ["s", "a.wav"] := (Option.some.inj (h2.symm.trans hp)).symm
  rw [hskip rfl rfl]
  rw [hpv]

-- ---------------------------------------------------------------------
-- Lemmas and claim theorems for dry run (C6)
-- ---------------------------------------------------------------------

theorem placeAt_fs_dry (cfg : Config) (orc : Oracles) (fs : FS) (idx : List (String × FsPath))
    (file : FsPath) (fileName : String) (t : FsPath) (hd : cfg.dryRun = true) :
    (placeAt cfg orc fs idx file fileName t).fs = fs := by
  simp only [placeAt]
  rw [if_pos hd]

theorem classifyStep_fs_dry (cfg : Config) (orc : Oracles) (fs : FS) (idx : List (String × FsPath))
    (file : FsPath) (fileName parentFolder : String) (isMidi : Bool) (hd : cfg.dryRun = true) :
    (classifyStep cfg orc fs idx file fileName parentFolder isMidi).fs = fs := by
  by_cases hm : cfg.sortMidiToFolder = true ∧ isMidi = true
  · simp only [classifyStep]
    rw [if_pos hm]
    exact placeAt_fs_dry _ _ _ _ _ _ _ hd
  · simp only [classifyStep]
    rw [if_neg hm]
    exact placeAt_fs_dry _ _ _ _ _ _ _ hd

theorem dedupStep_fs_dry (cfg : Config) (orc : Oracles) (fs : FS) (idx : List (String × FsPath))
    (file : FsPath) (fileName : String) (hd : cfg.dryRun = true) :
    (match dedupStep cfg orc fs idx file fileName with
     | DedupOut.handled out => out.fs
     | DedupOut.toClassify fs1 _ => fs1) = fs := by
  unfold dedupStep
  by_cases he : ¬ cfg.dedupe.enabled = true
  · rw [if_pos he]
  · rw [if_neg he]
    cases horc : orc.hashOf file with
    | error e => rfl
    | ok h =>
      dsimp only
      cases hl : List.lookup h idx with
      | none => rfl
      | some p =>
        dsimp only
        rw [if_pos hd]

theorem categorizeFile_fs_dry (cfg : Config) (orc : Oracles) (fs : FS)
    (idx : List (String × FsPath)) (file : FsPath) (hd : cfg.dryRun = true) :
    (categorizeFile cfg orc fs idx file).fs = fs := by
  simp only [categorizeFile]
  by_cases hH : isHiddenName (List.getLastD file "") = true
  · rw [if_pos hH]
  · rw [if_neg hH]
    by_cases hA : ¬ isAcceptedExt (List.getLastD file "") cfg.extensions = true
    · rw [if_pos hA]
    · rw [if_neg hA]
      have hds := dedupStep_fs_dry cfg orc fs idx file (List.getLastD file "") hd
      cases hcase : dedupStep cfg orc fs idx file (List.getLastD file "") with
      | handled out =>
        rw [hcase] at hds
        dsimp only at hds ⊢
        exact hds
      | toClassify fs1 idx1 =>
        rw [hcase] at hds
        dsimp only at hds ⊢
        rw [classifyStep_fs_dry _ _ _ _ _ _ _ _ hd]
        exact hds

theorem organizeLoop_fs_dry (cfg : Config) (orc : Oracles) (hd : cfg.dryRun = true) :
    ∀ (files : List FsPath) (fs : FS) (idx : List (String × FsPath)),
    (organizeLoop cfg orc fs idx files).1 = fs := by
  intro files
  induction files with
  | nil => intro fs idx; rfl
  | cons f rest ih =>
    intro fs idx
    simp only [organizeLoop]
    by_cases harch : getExt (List.getLastD f "") = "zip" ∨ getExt (List.getLastD f "") = "rar"
    · rw [if_pos harch, if_pos hd]
      exact ih fs idx
    · rw [if_neg harch]
      dsimp only
      rw [ih]
      exact categorizeFile_fs_dry cfg orc fs idx f hd

theorem dedupStep_disabled (cfg : Config) (orc : Oracles) (fs : FS)
    (idx : List (String × FsPath)) (file : FsPath) (fileName : String)
    (hena : cfg.dedupe.enabled = false) :
    dedupStep cfg orc fs idx file fileName = DedupOut.toClassify fs idx := by
  unfold dedupStep
  rw [if_pos (by rw [hena]; simp)]

theorem dedupStep_error (cfg : Config) (orc : Oracles) (fs : FS)
    (idx : List (String × FsPath)) (file : FsPath) (fileName : String) (e : String)
    (herr : orc.hashOf file = Except.error e) :
    dedupStep cfg orc fs idx file fileName = DedupOut.toClassify fs idx := by
  unfold dedupStep
  split
  · rfl
  · rw [herr]

theorem dedupStep_hit_planned_none (cfg : Config) (orc : Oracles) (fs : FS)
    (idx : List (String × FsPath)) (file : FsPath) (fileName : String) (h : String) (p : FsPath)
    (henabled : cfg.dedupe.enabled = true)
    (hok : orc.hashOf file = Except.ok h)
    (hfound : List.lookup h idx = some p)
    (hmv : ∀ d, orc.moveOk file d = true) :
    ∃ out, dedupStep cfg orc fs idx file fileName = DedupOut.handled out ∧ out.planned = none := by
  rw [dedupStep_hit cfg orc fs idx file fileName h p henabled hok hfound]
  by_cases hd : cfg.dryRun = true
  · rw [if_pos hd]
    exact ⟨_, rfl, rfl⟩
  · rw [if_neg hd]
    cases hmode : cfg.dedupe.mode with
    | skip => exact ⟨_, rfl, rfl⟩
    | quarantine =>
      dsimp only
      rw [if_pos (hmv _)]
      exact ⟨_, rfl, rfl⟩

theorem classifyStep_planned_dry_real (cfg : Config) (b : Bool) (orc : Oracles)
    (fs fs' : FS) (idx idx' : List (String × FsPath)) (file : FsPath)
    (fileName parentFolder : String) (isMidi : Bool) :
    (classifyStep { cfg with dryRun := b } orc fs idx file fileName parentFolder isMidi).planned
      = (classifyStep cfg orc fs' idx' file fileName parentFolder isMidi).planned := by
  by_cases hm : cfg.sortMidiToFolder = true ∧ isMidi = true
  · simp only [classifyStep]
    rw [if_pos hm, if_pos hm]
    rw [placeAt_planned, placeAt_planned]
    rfl
  · simp only [classifyStep]
    rw [if_neg hm, if_neg hm]
    rw [placeAt_planned, placeAt_planned]
    rfl

/-- The pre-disambiguation planned destination a file gets does not
depend on the dry-run flag (same state, move syscalls succeeding). -/
theorem categorizeFile_planned_dry_real (cfg : Config) (b : Bool) (orc : Oracles) (fs : FS)
    (idx : List (String × FsPath)) (file : FsPath)
    (hmv : ∀ d, orc.moveOk file d = true) :
    (categorizeFile { cfg with dryRun := b } orc fs idx file).planned
      = (categorizeFile cfg orc fs idx file).planned := by
  simp only [categorizeFile]
  by_cases hH : isHiddenName (List.getLastD file "") = true
  · rw [if_pos hH, if_pos hH]
  · rw [if_neg hH, if_neg hH]
    by_cases hA : ¬ isAcceptedExt (List.getLastD file "") cfg.extensions = true
    · rw [if_pos hA, if_pos hA]
    · rw [if_neg hA, if_neg hA]
      by_cases he : cfg.dedupe.enabled = true
      · cases horc : orc.hashOf file with
        | error e =>
          rw [dedupStep_error { cfg with dryRun := b } orc fs idx file _ e horc,
            dedupStep_error cfg orc fs idx file _ e horc]
          exact classifyStep_planned_dry_real ..
        | ok h =>
          cases hl : List.lookup h idx with
          | none =>
            rw [dedupStep_fresh { cfg with dryRun := b } orc fs idx file _ h he horc hl,
              dedupStep_fresh cfg orc fs idx file _ h he horc hl]
            exact classifyStep_planned_dry_real ..
          | some p =>
            obtain ⟨out1, hout1, hp1⟩ := dedupStep_hit_planned_none { cfg with dryRun := b }
              orc fs idx file (List.getLastD file "") h p he horc hl hmv
            obtain ⟨out2, hout2, hp2⟩ := dedupStep_hit_planned_none cfg
              orc fs idx file (List.getLastD file "") h p he horc hl hmv
            rw [hout1, hout2]
            dsimp only
            rw [hp1, hp2]
      · have he' : cfg.dedupe.enabled = false := by
          cases hee : cfg.dedupe.enabled with
          | false => rfl
          | true => exact absurd hee he
        rw [dedupStep_disabled { cfg with dryRun := b } orc fs idx file _ he',
          dedupStep_disabled cfg orc fs idx file _ he']
        exact classifyStep_planned_dry_real ..

/-- C6 counterexample: with dry run enabled and the destination root
missing, the run still creates the destination directory — a filesystem
mutation — so a dry run does not always perform zero mutations. -/
theorem claim_C6_counterexample :
    startOrganizing
        (Config.mk ["s"] ["newdest"] ["wav"] [] false false 0 false false "" true true true
          (DedupeCfg.mk false DedupMode.skip false ["newdest", "_Duplicates"]))
        (Oracles.mk (fun _ => Except.ok "h") (fun _ => none) (fun _ _ => true)
          (fun _ => []) (fun _ => []))
        (FS.mk [] [["s"]])
      = some (FS.mk [] [["newdest"], ["s"]], []) ∧
    FS.mk ([] : List FsPath) [["newdest"], ["s"]] ≠ FS.mk ([] : List FsPath) [["s"]] := by
  decide

/-- C6 amended: under dry run the whole organize pass performs no
filesystem mutation other than creating the missing destination root
(archive extraction is skipped); each per-file step leaves the
filesystem untouched; and per file the computed planned
(pre-disambiguation) destination equals the one a real run computes from
the same state. -/
theorem claim_C6_dry_run_no_mutation (cfg : Config) (orc : Oracles) (fs : FS)
    (hd : cfg.dryRun = true) :
    (∀ fsOut moved, startOrganizing cfg orc fs = some (fsOut, moved) →
      fsOut = (if pathExistsF fs cfg.destDir then fs else mkdirRec fs cfg.destDir)) ∧
    (∀ (fsx : FS) (idx : List (String × FsPath)) (f : FsPath),
      (categorizeFile cfg orc fsx idx f).fs = fsx) ∧
    (∀ (fsx : FS) (idx : List (String × FsPath)) (f : FsPath),
      (∀ d, orc.moveOk f d = true) →
      (categorizeFile cfg orc fsx idx f).planned
        = (categorizeFile { cfg with dryRun := false } orc fsx idx f).planned) := by
  refine ⟨?_, ?_, ?_⟩
  · intro fsOut moved hrun
    simp only [startOrganizing] at hrun
    by_cases hs : ¬ pathExistsF fs cfg.samplesDir = true
    · rw [if_pos hs] at hrun
      exact absurd hrun (by simp)
    · rw [if_neg hs] at hrun
      by_cases hde : cfg.destDir.isEmpty = true
      · rw [if_pos hde] at hrun
        exact absurd hrun (by simp)
      · rw [if_neg hde] at hrun
        rw [if_neg (fun hcon => hcon.2.2.1 hd)] at hrun
        have hpair := Option.some.inj hrun
        have hfst : fsOut = (organizeLoop cfg orc
            (if pathExistsF fs cfg.destDir = true then fs else mkdirRec fs cfg.destDir)
            (if cfg.dedupe.enabled = true ∧ cfg.dedupe.preferDest = true
              then seedIndex cfg orc (getAllFilesModel
                (if pathExistsF fs cfg.destDir = true then fs else mkdirRec fs cfg.destDir)
                cfg.destDir) else [])
            (getAllFilesModel
              (if pathExistsF fs cfg.destDir = true then fs else mkdirRec fs cfg.destDir)
              cfg.samplesDir)).1 := (congrArg Prod.fst hpair).symm
    -- the loop preserves the filesystem under dry run
        rw [hfst, organizeLoop_fs_dry cfg orc hd]
  · intro fsx idx f
    exact categorizeFile_fs_dry cfg orc fsx idx f hd
  · intro fsx idx f hmv
    have h1 := categorizeFile_planned_dry_real cfg false orc fsx idx f hmv
    have h2 : { cfg with dryRun := cfg.dryRun } = cfg := rfl
    calc (categorizeFile cfg orc fsx idx f).planned
        = (categorizeFile { cfg with dryRun := true } orc fsx idx f).planned := by rw [← hd]
      _ = (categorizeFile cfg orc fsx idx f).planned := by
          rw [categorizeFile_planned_dry_real cfg true orc fsx idx f hmv]
      _ = (categorizeFile { cfg with dryRun := false } orc fsx idx f).planned := by rw [h1]

/-- Witness for the amended C6 at a concrete dry run: the resulting
filesystem is exactly the input plus the created destination root. -/
theorem claim_C6_dry_run_no_mutation_witness :
    FS.mk ([] : List FsPath) [["newdest"], ["s"]]
      = (if pathExistsF (FS.mk ([] : List FsPath) [["s"]]) ["newdest"]
          then FS.mk ([] : List FsPath) [["s"]]
          else mkdirRec (FS.mk ([] : List FsPath) [["s"]]) ["newdest"]) :=
  (claim_C6_dry_run_no_mutation
    (Config.mk ["s"] ["newdest"] ["wav"] [] false false 0 false false "" true true true
      (DedupeCfg.mk false DedupMode.skip false ["newdest", "_Duplicates"]))
    (Oracles.mk (fun _ => Except.ok "h") (fun _ => none) (fun _ _ => true)
      (fun _ => []) (fun _ => []))
    (FS.mk [] [["s"]]) rfl).1
    (FS.mk [] [["newdest"], ["s"]]) [] (by decide)

-- ---------------------------------------------------------------------
-- Lemmas and claim theorems for archive traversal safety (C2)
-- ---------------------------------------------------------------------

theorem flattenStep_files_mem (fs : FS) (root : FsPath) (c : String) (p : FsPath)
    (hp : p ∈ (flattenStep fs root c).files) :
    p ∈ fs.files ∨ (root <+: p ∧ root.length < p.length) := by
  simp only [flattenStep, List.mem_filter, List.mem_map] at hp
  obtain ⟨⟨q, hq, rfl⟩, _⟩ := hp
  unfold hoist
  by_cases hcond : (root ++ [c]).isPrefixOf q = true ∧ root.length + 1 < q.length
  · rw [if_pos hcond]
    right
    constructor
    · exact List.prefix_append root _
    · have : (q.drop (root.length + 1)).length = q.length - (root.length + 1) :=
        List.length_drop _ _
      simp only [List.length_append, this]
      omega
  · rw [if_neg hcond]
    exact Or.inl hq

theorem flattenSingleFolders_files_mem (root : FsPath) :
    ∀ (fuel : Nat) (fs : FS) (p : FsPath), p ∈ (flattenSingleFolders fs root fuel).files →
      p ∈ fs.files ∨ (root <+: p ∧ root.length < p.length) := by
  intro fuel
  induction fuel with
  | zero => intro fs p hp; exact Or.inl hp
  | succ fuel ih =>
    intro fs p hp
    simp only [flattenSingleFolders] at hp
    by_cases hex : ¬ pathExistsF fs root = true
    · rw [if_pos hex] at hp
      exact Or.inl hp
    · rw [if_neg hex] at hp
      cases hc : childNamesOf fs root with
      | nil =>
        rw [hc] at hp
        exact Or.inl hp
      | cons c rest =>
        cases rest with
        | nil =>
          rw [hc] at hp
          dsimp only at hp
          by_cases hcond : isDirChild fs root c = true ∧ ¬ isHiddenOrJunk c = true
          · rw [if_pos hcond] at hp
            rcases ih (flattenStep fs root c) p hp with hin | hins
            · exact flattenStep_files_mem fs root c p hin
            · exact Or.inr hins
          · rw [if_neg hcond] at hp
            exact Or.inl hp
        | cons c2 r2 =>
          rw [hc] at hp
          exact Or.inl hp

/-- Every file existing after the zip write loop is an old file or lies
strictly inside the scratch directory — the zip-slip guard admits only
resolved targets strictly below destDir. -/
theorem extractZip_fold_inside (fs0 : FS) (destDir : FsPath) :
    ∀ (entries : List ZipEntry) (acc : FS),
    (∀ p ∈ acc.files, p ∈ fs0.files ∨ (destDir <+: p ∧ destDir.length < p.length)) →
    ∀ p ∈ (entries.foldl (fun acc e =>
        if e.isDir then acc
        else
          let rel := e.epath.dropWhile (fun s => s = "")
          let target := resolveSegs destDir rel
          if destDir.isPrefixOf target ∧ destDir.length < target.length then
            writeFileAt (mkdirRec acc target.dropLast) target
          else acc) acc).files,
      p ∈ fs0.files ∨ (destDir <+: p ∧ destDir.length < p.length) := by
  intro entries
  induction entries with
  | nil => intro acc hacc p hp; exact hacc p hp
  | cons e rest ih =>
    intro acc hacc p hp
    simp only [List.foldl_cons] at hp
    refine ih _ ?_ p hp
    intro q hq
    by_cases hdir : e.isDir = true
    · rw [if_pos hdir] at hq
      exact hacc q hq
    · rw [if_neg hdir] at hq
      by_cases hg : destDir.isPrefixOf (resolveSegs destDir (e.epath.dropWhile (fun s => s = ""))) = true
        ∧ destDir.length < (resolveSegs destDir (e.epath.dropWhile (fun s => s = ""))).length
      · rw [if_pos hg] at hq
        simp only [writeFileAt, List.mem_cons] at hq
        rcases hq with rfl | hq
        · right
          exact ⟨List.isPrefixOf_iff_prefix.mp hg.1, hg.2⟩
        · have hq' : q ∈ (mkdirRec acc _).files := List.mem_of_mem_erase hq
          exact hacc q hq'
      · rw [if_neg hg] at hq
        exact hacc q hq

/-- C2 amended, ZIP side: extraction of a ZIP archive never creates a
file outside the scratch directory — every file present afterwards was
already present or lies strictly inside destDir — and every path in the
returned extracted list lies strictly inside destDir; entries whose
resolved path escapes are skipped. (The RAR extractor has no such guard;
see the counterexample.) -/
theorem claim_C2_zip_traversal_guard (fs : FS) (zipPath destDir : FsPath)
    (entries : List ZipEntry) (keep : Bool) :
    (∀ p ∈ (extractZip fs zipPath destDir entries keep).1.files,
      p ∈ fs.files ∨ (destDir <+: p ∧ destDir.length < p.length)) ∧
    (∀ p ∈ (extractZip fs zipPath destDir entries keep).2,
      destDir <+: p ∧ destDir.length < p.length) := by
  have hfinal : ∀ (c : Prop) (inst : Decidable c) (X : FS) (z q : FsPath),
      q ∈ (if c then removeFileAt X z else X).files → q ∈ X.files := by
    intro c inst X z q hq
    split at hq
    · exact List.mem_of_mem_erase hq
    · exact hq
  have hfs0 : (if pathExistsF fs destDir = true then fs else mkdirRec fs destDir).files
      = fs.files := by
    split
    · rfl
    · rfl
  constructor
  · intro p hp
    simp only [extractZip] at hp
    have hp2 := hfinal _ _ _ _ p hp
    rcases flattenSingleFolders_files_mem destDir _ _ p hp2 with h | h
    · refine extractZip_fold_inside fs destDir entries _ ?_ p h
      intro q hq
      rw [hfs0] at hq
      exact Or.inl hq
    · exact Or.inr h
  · intro p hp
    simp only [extractZip] at hp
    simp only [walkFiles, List.mem_filter] at hp
    have hp2 := of_decide_eq_true hp.2
    exact ⟨List.isPrefixOf_iff_prefix.mp hp2.1, hp2.2.1⟩

/-- C2 counterexample: the RAR extractor applies no traversal guard — an
entry named dot-dot/evil.wav is not dropped: it is reported in the
returned extracted-file list at a path outside the scratch directory. -/
theorem claim_C2_counterexample :
    (extractRarArchive (FS.mk [] [["t", "scratch"]]) ["a.rar"] ["t", "scratch"]
        [RarEntry.mk ["..", "evil.wav"] false] true).2
      = [["t", "evil.wav"]] ∧
    ¬ ((["t", "scratch"] : FsPath) <+: (["t", "evil.wav"] : FsPath)) := by
  decide

/-- Witness for the ZIP side of C2: extracting an archive holding one
escaping entry and one honest entry yields only the honest entry, inside
the scratch directory. -/
theorem claim_C2_zip_traversal_guard_witness :
    (["t", "sc"] : FsPath) <+: (["t", "sc", "a.wav"] : FsPath) ∧
    (["t", "sc"] : FsPath).length < (["t", "sc", "a.wav"] : FsPath).length :=
  (claim_C2_zip_traversal_guard (FS.mk [] [["t"]]) ["a.zip"] ["t", "sc"]
    [ZipEntry.mk ["..", "evil.wav"] false, ZipEntry.mk ["W", "a.wav"] false] true).2
    ["t", "sc", "a.wav"] (by decide)

-- ---------------------------------------------------------------------
-- Lemmas and claim theorems for archive flattening (C5)
-- ---------------------------------------------------------------------

theorem isPrefixOf_append_self (root x : FsPath) : root.isPrefixOf (root ++ x) = true := by
  rw [List.isPrefixOf_iff_prefix]
  exact List.prefix_append root x

theorem getD_append_cons (root : FsPath) (c : String) (t : List String) :
    (root ++ c :: t).getD root.length "" = c := by
  induction root with
  | nil => rfl
  | cons r rs ih => simpa using ih

theorem dedup_const {α : Type} [DecidableEq α] (a : α) :
    ∀ l : List α, l ≠ [] → (∀ x ∈ l, x = a) → l.dedup = [a] := by
  intro l
  induction l with
  | nil => intro h _; exact absurd rfl h
  | cons x xs ih =>
    intro _ hall
    have hx : x = a := hall x (by simp)
    subst hx
    cases hxs : xs with
    | nil => simp
    | cons y ys =>
      rw [← hxs]
      have hxs' : xs ≠ [] := by rw [hxs]; simp
      have hdx : xs.dedup = [x] := ih hxs' (fun z hz => hall z (by simp [hz]))
      have hmem : x ∈ xs.dedup := by rw [hdx]; simp
      rw [List.dedup_cons_of_mem (List.mem_dedup.mp hmem), hdx]

theorem hoist_deep (root : FsPath) (c : String) (t : List String) (ht : t ≠ []) :
    hoist root c (root ++ c :: t) = root ++ t := by
  unfold hoist
  have hpre : (root ++ [c]).isPrefixOf (root ++ c :: t) = true := by
    have : root ++ c :: t = (root ++ [c]) ++ t := by simp
    rw [this]
    exact isPrefixOf_append_self _ _
  have hlen : root.length + 1 < (root ++ c :: t).length := by
    simp only [List.length_append, List.length_cons]
    cases t with
    | nil => exact absurd rfl ht
    | cons u us => simp only [List.length_cons]; omega
  rw [if_pos ⟨hpre, hlen⟩]
  have : root ++ c :: t = (root ++ [c]) ++ t := by simp
  rw [this]
  have hlc : (root ++ [c]).length = root.length + 1 := by simp
  rw [← hlc, List.drop_left]

theorem hoist_short (root : FsPath) (c : String) (p : FsPath)
    (hlen : p.length ≤ root.length + 1) : hoist root c p = p := by
  unfold hoist
  rw [if_neg]
  intro hcon
  omega

theorem chainFS_root_exists (root : FsPath) (ds : List String) (names : List String) :
    pathExistsF (chainFS root ds names) root = true := by
  simp only [pathExistsF, decide_eq_true_eq]
  right
  simp only [chainFS, List.mem_map]
  exact ⟨0, by simp [List.mem_range], by simp⟩

theorem pick_deep (root : FsPath) (c : String) (t : List String) :
    (if root.isPrefixOf (root ++ c :: t) = true ∧ root.length < (root ++ c :: t).length
     then some ((root ++ c :: t).getD root.length "") else none) = some c := by
  rw [if_pos ⟨isPrefixOf_append_self root (c :: t), by simp⟩, getD_append_cons]

theorem pick_self (root : FsPath) :
    (if root.isPrefixOf root = true ∧ root.length < root.length
     then some (root.getD root.length "") else none) = (none : Option String) := by
  rw [if_neg]
  rintro ⟨_, h⟩
  omega

theorem childNamesOf_chain (root : FsPath) (d : String) (ds : List String)
    (names : List String) (hne : names ≠ []) :
    childNamesOf (chainFS root (d :: ds) names) root = [d] := by
  unfold childNamesOf
  apply dedup_const
  · intro hcon
    rw [List.filterMap_eq_nil_iff] at hcon
    obtain ⟨nm, hnm⟩ : ∃ nm, nm ∈ names := by
      cases names with
      | nil => exact absurd rfl hne
      | cons a as => exact ⟨a, by simp⟩
    have hmem : (root ++ (d :: ds) ++ [nm])
        ∈ ((chainFS root (d :: ds) names).files ++ (chainFS root (d :: ds) names).dirs) := by
      apply List.mem_append.mpr
      left
      simp only [chainFS, List.mem_map]
      exact ⟨nm, hnm, rfl⟩
    have hnone := hcon _ hmem
    have hassoc : root ++ (d :: ds) ++ [nm] = root ++ d :: (ds ++ [nm]) := by simp
    rw [hassoc, pick_deep] at hnone
    exact Option.noConfusion hnone
  · intro x hx
    rw [List.mem_filterMap] at hx
    obtain ⟨p, hp, hpick⟩ := hx
    rcases List.mem_append.mp hp with hpf | hpd
    · simp only [chainFS, List.mem_map] at hpf
      obtain ⟨nm, _, rfl⟩ := hpf
      have hassoc : root ++ (d :: ds) ++ [nm] = root ++ d :: (ds ++ [nm]) := by simp
      rw [hassoc, pick_deep] at hpick
      exact (Option.some.inj hpick).symm
    · simp only [chainFS, List.mem_map] at hpd
      obtain ⟨i, hi, rfl⟩ := hpd
      cases i with
      | zero =>
        simp only [List.take_zero, List.append_nil] at hpick
        rw [pick_self] at hpick
        exact Option.noConfusion hpick
      | succ j =>
        rw [List.take_succ_cons] at hpick
        rw [pick_deep] at hpick
        exact (Option.some.inj hpick).symm

theorem isDirChild_chain_cons (root : FsPath) (d : String) (ds : List String)
    (names : List String) :
    isDirChild (chainFS root (d :: ds) names) root d = true := by
  simp only [isDirChild, Bool.or_eq_true, decide_eq_true_eq]
  left
  simp only [chainFS, List.mem_map]
  refine ⟨1, by simp [List.mem_range], by simp⟩

theorem isDirChild_chain_nil (root : FsPath) (names : List String) (c : String) :
    isDirChild (chainFS root [] names) root c = false := by
  simp only [isDirChild, Bool.or_eq_false_iff]
  constructor
  · simp only [decide_eq_false_iff_not, chainFS, List.mem_map]
    rintro ⟨i, hi, heq⟩
    have hi' : i = 0 := by
      simp only [List.mem_range, List.length_nil] at hi
      omega
    subst hi'
    simp only [List.take_zero, List.append_nil] at heq
    have := congrArg List.length heq
    simp at this
  · rw [List.any_eq_false]
    intro p hp
    rcases List.mem_append.mp hp with hpf | hpd
    · simp only [chainFS, List.mem_map] at hpf
      obtain ⟨nm, _, rfl⟩ := hpf
      simp only [Bool.and_eq_true, decide_eq_true_eq, not_and]
      intro _
      simp only [List.length_append, List.length_nil, List.length_cons]
      omega
    · simp only [chainFS, List.mem_map] at hpd
      obtain ⟨i, hi, rfl⟩ := hpd
      have hi' : i = 0 := by
        simp only [List.mem_range, List.length_nil] at hi
        omega
      subst hi'
      simp only [List.take_zero, List.append_nil]
      simp only [Bool.and_eq_true, decide_eq_true_eq, not_and]
      intro _
      omega

theorem flattenStep_chain (root : FsPath) (d : String) (ds : List String) (names : List String)
    (hd : d ∉ ds) (hdisj : ∀ nm ∈ names, nm ≠ d) :
    flattenStep (chainFS root (d :: ds) names) root d = chainFS root ds names := by
  unfold flattenStep chainFS
  dsimp only
  congr 1
  · rw [List.map_map]
    have hmap : names.map ((hoist root d) ∘ (fun nm => root ++ (d :: ds) ++ [nm]))
        = names.map (fun nm => root ++ ds ++ [nm]) := by
      apply List.map_congr_left
      intro nm _
      simp only [Function.comp]
      have hassoc : root ++ (d :: ds) ++ [nm] = root ++ d :: (ds ++ [nm]) := by simp
      rw [hassoc, hoist_deep root d (ds ++ [nm]) (by simp)]
      simp
    rw [hmap]
    apply List.filter_eq_self.mpr
    intro p hp
    simp only [List.mem_map] at hp
    obtain ⟨nm, hnm, rfl⟩ := hp
    simp only [ne_eq, decide_eq_true_eq]
    intro hcon
    have hcon2 : ds ++ [nm] = [d] := by
      have h3 : root ++ (ds ++ [nm]) = root ++ [d] := by simpa using hcon
      exact List.append_cancel_left h3
    cases ds with
    | nil => exact hdisj nm hnm (by simpa using hcon2)
    | cons e es =>
      have := congrArg List.length hcon2
      simp only [List.length_append, List.length_cons, List.length_singleton] at this
      omega
  · have e1 : List.range ((d :: ds).length + 1) = 0 :: 1 :: (List.range ds.length).map (fun i => i + 1 + 1) := by
      have h4 : (d :: ds).length + 1 = ds.length + 1 + 1 := by simp
      rw [h4, List.range_succ_eq_map, List.range_succ_eq_map]
      simp [List.map_map, Function.comp]
    rw [e1]
    simp only [List.map_cons, List.map_map]
    have h0 : hoist root d (root ++ List.take 0 (d :: ds)) = root := by
      simp only [List.take_zero, List.append_nil]
      exact hoist_short root d root (by omega)
    have h1 : hoist root d (root ++ List.take 1 (d :: ds)) = root ++ [d] := by
      simp only [List.take_succ_cons, List.take_zero]
      exact hoist_short root d (root ++ [d]) (by simp)
    rw [h0, h1]
    have hp0 : decide (root ≠ root ++ [d]) = true := by
      simp only [ne_eq, decide_eq_true_eq]
      intro hcon
      have := congrArg List.length hcon
      simp at this
    have hp1 : ¬ (decide ((root ++ [d]) ≠ root ++ [d]) = true) := by
      simp
    simp only [List.filter_cons]
    rw [if_pos hp0, if_neg hp1]
    have hmap2 : (List.range ds.length).map
          ((hoist root d) ∘ ((fun i => root ++ List.take i (d :: ds)) ∘ (fun i => i + 1 + 1)))
        = (List.range ds.length).map (fun i => root ++ ds.take (i + 1)) := by
      apply List.map_congr_left
      intro i hi
      simp only [List.mem_range] at hi
      have hds : ds ≠ [] := by intro h; rw [h] at hi; simp at hi
      simp only [Function.comp, List.take_succ_cons]
      refine hoist_deep root d (ds.take (i + 1)) ?_
      simp [List.take_eq_nil_iff, hds]
    rw [hmap2]
    have hfil : List.filter (fun p => decide (p ≠ root ++ [d]))
          ((List.range ds.length).map (fun i => root ++ ds.take (i + 1)))
        = (List.range ds.length).map (fun i => root ++ ds.take (i + 1)) := by
      apply List.filter_eq_self.mpr
      intro p hp
      simp only [List.mem_map, List.mem_range] at hp
      obtain ⟨i, _, rfl⟩ := hp
      simp only [ne_eq, decide_eq_true_eq]
      intro hcon
      have h5 : ds.take (i + 1) = [d] := List.append_cancel_left hcon
      have h6 : d ∈ ds.take (i + 1) := by rw [h5]; exact List.mem_singleton_self d
      exact hd (List.mem_of_mem_take h6)
    rw [hfil, List.range_succ_eq_map, List.map_cons, List.map_map]
    simp only [List.take_zero, List.append_nil]
    apply congrArg
    apply List.map_congr_left
    intro i _
    simp [Function.comp]

/-- The flattening loop collapses a chain of distinct, non-junk wrapper
directories completely, through any number of nesting levels, leaving the
bottom files directly at the root. -/
theorem flatten_chain (root : FsPath) :
    ∀ (fuel : Nat) (ds names : List String),
    ds.Nodup → (∀ x ∈ ds, ¬ isHiddenOrJunk x = true) →
    (∀ nm ∈ names, nm ∉ ds) → names ≠ [] → ds.length < fuel →
    flattenSingleFolders (chainFS root ds names) root fuel = chainFS root [] names := by
  intro fuel
  induction fuel with
  | zero =>
    intro ds names _ _ _ _ hlen
    omega
  | succ fuel ih =>
    intro ds names hnodup hjunk hdisj hne hlen
    cases ds with
    | nil =>
      simp only [flattenSingleFolders]
      rw [if_neg (by simp [chainFS_root_exists])]
      cases hc : childNamesOf (chainFS root [] names) root with
      | nil => rfl
      | cons c rest =>
        cases rest with
        | nil =>
          dsimp only
          rw [if_neg]
          rintro ⟨h1, _⟩
          rw [isDirChild_chain_nil] at h1
          exact Bool.noConfusion h1
        | cons c2 r2 => rfl
    | cons d ds2 =>
      simp only [flattenSingleFolders]
      rw [if_neg (by simp [chainFS_root_exists])]
      rw [childNamesOf_chain root d ds2 names hne]
      dsimp only
      have hcond : isDirChild (chainFS root (d :: ds2) names) root d = true ∧
          ¬ isHiddenOrJunk d = true :=
        ⟨isDirChild_chain_cons root d ds2 names, hjunk d (by simp)⟩
      rw [if_pos hcond]
      have hd2 : d ∉ ds2 := (List.nodup_cons.mp hnodup).1
      have hdisj2 : ∀ nm ∈ names, nm ≠ d := by
        intro nm hnm he
        exact hdisj nm hnm (by rw [he]; exact List.mem_cons_self d ds2)
      rw [flattenStep_chain root d ds2 names hd2 hdisj2]
      exact ih ds2 names (List.nodup_cons.mp hnodup).2
        (fun x hx => hjunk x (by simp [hx]))
        (fun nm hnm h => hdisj nm hnm (List.mem_cons_of_mem d h))
        hne (by simp only [List.length_cons] at hlen; omega)

/-- C5: the flattening loop of archive expansion repeatedly collapses a
scratch root whose only visible content is a single non-junk wrapper
directory, through multiple nesting levels, until the bottom files sit
directly at the root; and the ZIP expander returns exactly the recursive
walk of the scratch root after flattening. (The RAR expander does not: it
returns the header names joined under the destination, computed before
flattening — see the counterexample.) -/
theorem claim_C5_flatten_and_walk :
    (∀ (root : FsPath) (ds names : List String) (fuel : Nat),
       ds.Nodup → (∀ x ∈ ds, ¬ isHiddenOrJunk x = true) →
       (∀ nm ∈ names, nm ∉ ds) → names ≠ [] → ds.length < fuel →
       flattenSingleFolders (chainFS root ds names) root fuel = chainFS root [] names) ∧
    (∀ (fs : FS) (zipPath destDir : FsPath) (entries : List ZipEntry),
       (extractZip fs zipPath destDir entries true).2
         = walkFiles (extractZip fs zipPath destDir entries true).1 destDir) := by
  constructor
  · intro root ds names fuel h1 h2 h3 h4 h5
    exact flatten_chain root fuel ds names h1 h2 h3 h4 h5
  · intro fs zipPath destDir entries
    unfold extractZip
    dsimp only
    simp only [eq_self_iff_true, not_true, false_and, if_false]

/-- Counterexample to C5 as stated for the RAR side: expanding a RAR
archive whose single entry sits inside a wrapper folder flattens the tree
on disk, yet the returned list is the stale header-joined path — it names
a file that no longer exists and misses the flattened one the recursive
walk finds. -/
theorem claim_C5_counterexample :
    (extractRarArchive (FS.mk [] [["t"]]) ["r.rar"] ["t"]
        [RarEntry.mk ["Wrapper", "a.wav"] false] true).2
      = [["t", "Wrapper", "a.wav"]] ∧
    walkFiles (extractRarArchive (FS.mk [] [["t"]]) ["r.rar"] ["t"]
        [RarEntry.mk ["Wrapper", "a.wav"] false] true).1 ["t"]
      = [["t", "a.wav"]] ∧
    ["t", "Wrapper", "a.wav"] ∉ (extractRarArchive (FS.mk [] [["t"]]) ["r.rar"] ["t"]
        [RarEntry.mk ["Wrapper", "a.wav"] false] true).1.files := by
  decide

/-- Witness for C5: a two-level wrapper chain flattens completely, and a
concrete ZIP expansion returns the post-flatten walk. -/
theorem claim_C5_flatten_and_walk_witness :
    flattenSingleFolders (chainFS ["t"] ["w1", "w2"] ["a.wav"]) ["t"] 3
      = chainFS ["t"] [] ["a.wav"] ∧
    (extractZip (FS.mk [] [["t"]]) ["z.zip"] ["t"]
        [ZipEntry.mk ["w", "a.wav"] false] true).2
      = walkFiles (extractZip (FS.mk [] [["t"]]) ["z.zip"] ["t"]
          [ZipEntry.mk ["w", "a.wav"] false] true).1 ["t"] :=
  ⟨claim_C5_flatten_and_walk.1 ["t"] ["w1", "w2"] ["a.wav"] 3
      (by decide) (by decide) (by decide) (by decide) (by decide),
    claim_C5_flatten_and_walk.2 (FS.mk [] [["t"]]) ["z.zip"] ["t"]
      [ZipEntry.mk ["w", "a.wav"] false]⟩
